import Mathlib

/-!
Shallow embedding of the L1X NFT registry contract (`src/src/lib.rs`).

Addresses and token identities are modelled as natural numbers; the SDK's
`LookupMap` becomes a Lean function into `Option`, its `Vector` a `List`,
and `BTreeSet` a boolean membership function.  Every public operation that
can panic in Rust is modelled as an `Except NftError` computation; the
public `nft_*` entry points (load / mutate / save, where a panic skips the
save) become `applyOp`, which keeps the pre-state on any error.
-/

/-- On-chain addresses, abstracted to naturals. -/
abbrev Address := Nat

/-- Token identities (`u128` in the source). -/
abbrev TokenId := Nat

/-- `L1X_NFT_TOTAL_SUPPLY`: the fixed maximum supply constant. -/
def L1X_NFT_TOTAL_SUPPLY : Nat := 10000

/-- Reverse-index entry: owning address plus index inside that owner's
balance vector (`OwnerInfo` in the source). -/
structure OwnerInfo where
  address : Address
  token_idx : Nat
deriving DecidableEq, Repr

/-- Token metadata (`NFTMetadata`); carried but irrelevant to the registry logic. -/
structure NFTMetadata where
  name : String
  decimals : Nat
  symbol : String
  icon : Option String
  uri : String

/-- The typed failures of the contract, one per distinct `assert!`/`expect`
condition in the source. -/
inductive NftError where
  | UnknownToken
  | NotAuthorized
  | OwnerMismatch
  | AlreadyBurned
  | AlreadyMinted
  | SupplyExceeded
  | SupplyExhausted
  | NoCollection
deriving DecidableEq, Repr

/-- The contract state (`NftContract` struct). -/
structure NftContract where
  metadata : NFTMetadata
  current_token_id : Nat
  minted_total : Nat
  balance_of : Address → Option (List TokenId)
  owner_of : TokenId → Option OwnerInfo
  get_approved : TokenId → Option Address
  is_approved_for_all : Address → Option (Address → Option Bool)
  burned_nfts : TokenId → Bool

/-- Default metadata used to instantiate the initial state. -/
def md0 : NFTMetadata := { name := "", decimals := 0, symbol := "", icon := none, uri := "" }

/-- The freshly initialized contract state (`NftContract::new`). -/
def initContract : NftContract where
  metadata := md0
  current_token_id := 0
  minted_total := 0
  balance_of := fun _ => none
  owner_of := fun _ => none
  get_approved := fun _ => none
  is_approved_for_all := fun _ => none
  burned_nfts := fun _ => false

/-- `Vector::swap_remove(i)`: the element at `i` is replaced by the last
element, then the vector is truncated by one. -/
def swapRemove (l : List TokenId) (i : Nat) : List TokenId :=
  (l.set i (l.getLastD 0)).dropLast

/-- `internal_remove_token`: looks up the owner, swap-removes the token from
the owner's balance vector, redirects the reverse-index entry of the element
that was moved into the freed slot (when the removed slot was not the last),
then deletes the token's `owner_of` and `get_approved` entries.  Returns the
owner address and the post-removal balance length. -/
def internal_remove_token (c : NftContract) (id : TokenId) :
    Except NftError (NftContract × Address × Nat) :=
  match c.owner_of id with
  | none => Except.error NftError.UnknownToken
  | some owner_info =>
    match c.balance_of owner_info.address with
    | none => Except.error NftError.NoCollection
    | some balance_from =>
      let is_last : Bool := owner_info.token_idx == balance_from.length - 1
      let newBal := swapRemove balance_from owner_info.token_idx
      let c1 := { c with balance_of := fun a =>
        if a = owner_info.address then some newBal else c.balance_of a }
      let step : Except NftError NftContract :=
        if is_last then Except.ok c1
        else
          match newBal[owner_info.token_idx]? with
          | none => Except.error NftError.NoCollection
          | some swapped_token_id =>
            match c1.owner_of swapped_token_id with
            | none => Except.error NftError.UnknownToken
            | some owner_ref =>
              let owner_upd := { owner_ref with token_idx := owner_info.token_idx }
              Except.ok { c1 with owner_of := fun t =>
                if t = swapped_token_id then some owner_upd else c1.owner_of t }
      match step with
      | Except.error e => Except.error e
      | Except.ok c2 =>
        Except.ok
          ({ c2 with
              owner_of := fun t => if t = id then none else c2.owner_of t,
              get_approved := fun t => if t = id then none else c2.get_approved t },
            owner_info.address, newBal.length)

/-- `internal_add_token_to`: appends `id` to `toAddr`'s balance vector (created
lazily) and records the reverse-index entry at the new last index. -/
def internal_add_token_to (c : NftContract) (toAddr : Address) (id : TokenId) : NftContract :=
  let old := (c.balance_of toAddr).getD []
  let newBal := old ++ [id]
  { c with
    balance_of := fun a => if a = toAddr then some newBal else c.balance_of a,
    owner_of := fun t =>
      if t = id then some ⟨toAddr, newBal.length - 1⟩ else c.owner_of t }

/-- `mint_id_to`: mints the explicit identity `id` to `toAddr` after the
burned-set, already-minted and max-supply checks. -/
def mint_id_to (c : NftContract) (toAddr : Address) (id : TokenId) :
    Except NftError (NftContract × TokenId) :=
  if c.burned_nfts id then Except.error NftError.AlreadyBurned
  else if (c.owner_of id).isSome then Except.error NftError.AlreadyMinted
  else if L1X_NFT_TOTAL_SUPPLY < id then Except.error NftError.SupplyExceeded
  else
    let c1 := internal_add_token_to c toAddr id
    Except.ok ({ c1 with minted_total := c1.minted_total + 1 }, id)

/-- Fuel-indexed body of the `while` scan of `mint_to`; the fuel only bounds
the recursion depth and never runs out on the scan's actual domain. -/
def find_next_id_fuel : Nat → (TokenId → Option OwnerInfo) → Nat → Nat
  | 0, _, id => id
  | fuel + 1, f, id =>
    if L1X_NFT_TOTAL_SUPPLY < id then id
    else if (f id).isNone then id
    else find_next_id_fuel fuel f (id + 1)

/-- The `while` scan of `mint_to`: starting at `id`, advance past identities
that are present in `owner_of`, stopping as soon as the candidate is free or
exceeds the maximum supply.  The loop increments `id` toward
`L1X_NFT_TOTAL_SUPPLY + 1`, so `L1X_NFT_TOTAL_SUPPLY + 1 - id` steps always
suffice. -/
def find_next_id (f : TokenId → Option OwnerInfo) (id : Nat) : Nat :=
  find_next_id_fuel (L1X_NFT_TOTAL_SUPPLY + 1 - id) f id

lemma find_next_id_unfold (f : TokenId → Option OwnerInfo) (id : Nat) :
    find_next_id f id =
      if L1X_NFT_TOTAL_SUPPLY < id then id
      else if (f id).isNone then id
      else find_next_id f (id + 1) := by
  unfold find_next_id
  by_cases h1 : L1X_NFT_TOTAL_SUPPLY < id
  · have h0 : L1X_NFT_TOTAL_SUPPLY + 1 - id = 0 := by omega
    rw [h0, if_pos h1]
    rfl
  · obtain ⟨n, hn⟩ : ∃ n, L1X_NFT_TOTAL_SUPPLY + 1 - id = n + 1 :=
      ⟨L1X_NFT_TOTAL_SUPPLY - id, by omega⟩
    rw [hn, if_neg h1]
    show (if L1X_NFT_TOTAL_SUPPLY < id then id
      else if (f id).isNone then id else find_next_id_fuel n f (id + 1)) = _
    rw [if_neg h1]
    by_cases h2 : (f id).isNone
    · rw [if_pos h2, if_pos h2]
    · rw [if_neg h2, if_neg h2]
      congr 1
      omega

/-- `mint_to`: scans from `current_token_id + 1` for a free identity, fails
`SupplyExhausted` past the maximum supply, advances the cursor and delegates
to `mint_id_to`. -/
def mint_to (c : NftContract) (toAddr : Address) : Except NftError (NftContract × TokenId) :=
  let new_token_id := find_next_id c.owner_of (c.current_token_id + 1)
  if L1X_NFT_TOTAL_SUPPLY < new_token_id then Except.error NftError.SupplyExhausted
  else mint_id_to { c with current_token_id := new_token_id } toAddr new_token_id

/-- `burn`: contract-owner-only; removes the token and inserts it into the
burned set. -/
def burn (c : NftContract) (caller contractOwner : Address) (id : TokenId) :
    Except NftError NftContract :=
  if caller ≠ contractOwner then Except.error NftError.NotAuthorized
  else if (c.owner_of id).isNone then Except.error NftError.UnknownToken
  else
    match internal_remove_token c id with
    | Except.error e => Except.error e
    | Except.ok (c1, _from, _bal) =>
      Except.ok { c1 with burned_nfts := fun t => if t = id then true else c1.burned_nfts t }

/-- `approve`: token owner or blanket operator records `spender` as the
token's approved spender. -/
def approve (c : NftContract) (caller spender : Address) (id : TokenId) :
    Except NftError NftContract :=
  match c.owner_of id with
  | none => Except.error NftError.UnknownToken
  | some owner =>
    let caller_is_owner : Bool := caller == owner.address
    let is_approved_operator : Bool :=
      (((c.is_approved_for_all owner.address).bind fun m => m caller).getD false)
    if caller_is_owner || is_approved_operator then
      Except.ok
        { c with get_approved := fun t => if t = id then some spender else c.get_approved t }
    else Except.error NftError.NotAuthorized

/-- `set_approval_for_all`: unconditionally records the caller's blanket
operator grant for `operator`. -/
def set_approval_for_all (c : NftContract) (caller operator : Address) (approved : Bool) :
    NftContract :=
  let oldMap := (c.is_approved_for_all caller).getD fun _ => none
  let newMap := fun a => if a = operator then some approved else oldMap a
  { c with is_approved_for_all := fun a =>
      if a = caller then some newMap else c.is_approved_for_all a }

/-- `transfer_from`: unknown-token, owner-mismatch and authorization checks
in source order, then remove-and-re-add of the token. -/
def transfer_from (c : NftContract) (caller from' toAddr : Address) (id : TokenId) :
    Except NftError NftContract :=
  match c.owner_of id with
  | none => Except.error NftError.UnknownToken
  | some owner_info =>
    if from' ≠ owner_info.address then Except.error NftError.OwnerMismatch
    else
      let caller_is_owner : Bool := owner_info.address == caller
      let is_approved_operator : Bool :=
        (((c.is_approved_for_all from').bind fun m => m caller).getD false)
      let is_approved_spender : Bool := c.get_approved id == some caller
      if caller_is_owner || is_approved_operator || is_approved_spender then
        match internal_remove_token c id with
        | Except.error e => Except.error e
        | Except.ok (c1, _, _) => Except.ok (internal_add_token_to c1 toAddr id)
      else Except.error NftError.NotAuthorized

/-- `balance_of` query: length of the owner's balance vector, `0` if absent. -/
def balanceOf (c : NftContract) (owner : Address) : Nat :=
  match c.balance_of owner with
  | some balance => balance.length
  | none => 0

/-- `owner_of` query: owning address of a live token. -/
def ownerOf (c : NftContract) (id : TokenId) : Except NftError Address :=
  match c.owner_of id with
  | none => Except.error NftError.UnknownToken
  | some oi => Except.ok oi.address

/-- `owned_tokens` query: materializes the owner's balance vector element by
element (`result.push(issued_tokens.get(idx))` for each index); panics when
the owner has no vector at all. -/
def owned_tokens (c : NftContract) (owner : Address) : Except NftError (List TokenId) :=
  match c.balance_of owner with
  | none => Except.error NftError.NoCollection
  | some issued_tokens =>
    Except.ok (List.ofFn fun i : Fin issued_tokens.length => issued_tokens.get i)

/-- One public mutating entry point, with the caller made explicit. -/
inductive Op where
  | mint (caller toAddr : Address)
  | mintId (caller toAddr : Address) (id : TokenId)
  | burnOp (caller : Address) (id : TokenId)
  | approveOp (caller spender : Address) (id : TokenId)
  | setApprovalForAll (caller operator : Address) (approved : Bool)
  | transfer (caller from' toAddr : Address) (id : TokenId)

/-- Runs one operation's internal implementation; `contractOwner` is the
`contract_owner_address()` of the deployment. -/
def runOp (contractOwner : Address) (c : NftContract) : Op → Except NftError NftContract
  | Op.mint _ toAddr =>
    match mint_to c toAddr with
    | Except.ok p => Except.ok p.1
    | Except.error e => Except.error e
  | Op.mintId _ toAddr id =>
    match mint_id_to c toAddr id with
    | Except.ok p => Except.ok p.1
    | Except.error e => Except.error e
  | Op.burnOp caller id => burn c caller contractOwner id
  | Op.approveOp caller spender id => approve c caller spender id
  | Op.setApprovalForAll caller operator approved =>
      Except.ok (set_approval_for_all c caller operator approved)
  | Op.transfer caller from' toAddr id => transfer_from c caller from' toAddr id

/-- The public `nft_*` wrapper: load, run, save — a panic skips the save, so
the stored state is unchanged on any failure. -/
def applyOp (contractOwner : Address) (c : NftContract) (op : Op) : NftContract :=
  match runOp contractOwner c op with
  | Except.ok c' => c'
  | Except.error _ => c

/-- A whole call sequence against the stored state. -/
def applyOps (contractOwner : Address) (c : NftContract) : List Op → NftContract
  | [] => c
  | op :: ops => applyOps contractOwner (applyOp contractOwner c op) ops

/-- Does this operation deliver a token to address `a` (mint or transfer-in)? -/
def opReceives : Op → Address → Bool
  | Op.mint _ t, a => t == a
  | Op.mintId _ t _, a => t == a
  | Op.transfer _ _ t _, a => t == a
  | _, _ => false

/-- Cross-structure consistency between the forward collections and the
reverse index: every reverse-index entry points at a slot that holds its
token, and every collection slot has a reverse-index entry pointing back at
exactly that slot. -/
def CrossConsistent (c : NftContract) : Prop :=
  (∀ id oi, c.owner_of id = some oi →
    ∃ l, c.balance_of oi.address = some l ∧ l[oi.token_idx]? = some id) ∧
  (∀ a l i id, c.balance_of a = some l → l[i]? = some id → c.owner_of id = some ⟨a, i⟩)

/-- Number of identities in `[0, L1X_NFT_TOTAL_SUPPLY]` that are live or burned. -/
def allocCount (c : NftContract) : Nat :=
  ((Finset.range (L1X_NFT_TOTAL_SUPPLY + 1)).filter
    (fun id => (c.owner_of id).isSome ∨ c.burned_nfts id = true)).card

/-- The full registry invariant carried through every operation:
cross-structure consistency, live and burned identities bounded by the
maximum supply, and `minted_total` counting exactly the live-or-burned
identities. -/
def RegistryInv (c : NftContract) : Prop :=
  CrossConsistent c ∧
  (∀ id, (c.owner_of id).isSome → id ≤ L1X_NFT_TOTAL_SUPPLY) ∧
  (∀ id, c.burned_nfts id = true → id ≤ L1X_NFT_TOTAL_SUPPLY) ∧
  c.minted_total = allocCount c

lemma getElem?_last {l : List TokenId} (h : l ≠ []) :
    l[l.length - 1]? = some (l.getLastD 0) := by
  obtain ⟨x, hx⟩ := Option.isSome_iff_exists.mp (List.getLast?_isSome.mpr h)
  rw [← List.getLast?_eq_getElem?, hx, List.getLastD_eq_getLast?, hx]
  rfl

lemma swapRemove_length (l : List TokenId) (i : Nat) :
    (swapRemove l i).length = l.length - 1 := by
  simp [swapRemove]

lemma swapRemove_getElem? (l : List TokenId) (i j : Nat) :
    (swapRemove l i)[j]? =
      if j < l.length - 1 then (if j = i then some (l.getLastD 0) else l[j]?) else none := by
  simp only [swapRemove, List.dropLast_eq_take, List.length_set, List.getElem?_take,
    List.getElem?_set]
  rcases Nat.lt_or_ge j (l.length - 1) with hj | hj
  · rcases eq_or_ne j i with rfl | hij
    · simp [hj, Nat.lt_of_lt_of_le hj (Nat.sub_le _ _)]
    · simp [hj, hij, Ne.symm hij]
  · simp [Nat.not_lt.mpr hj]

lemma internal_add_token_to_eq (c : NftContract) (toAddr : Address) (id : TokenId) :
    internal_add_token_to c toAddr id =
      { c with
        balance_of := fun a =>
          if a = toAddr then some (((c.balance_of toAddr).getD []) ++ [id]) else c.balance_of a,
        owner_of := fun t =>
          if t = id then some ⟨toAddr, ((c.balance_of toAddr).getD []).length⟩
          else c.owner_of t } := by
  simp [internal_add_token_to]

lemma internal_remove_token_last (c : NftContract) (id : TokenId) (oi : OwnerInfo)
    (l : List TokenId) (ho : c.owner_of id = some oi)
    (hb : c.balance_of oi.address = some l) (hlast : oi.token_idx = l.length - 1) :
    internal_remove_token c id = Except.ok
      ({ c with
          balance_of := fun a =>
            if a = oi.address then some (swapRemove l oi.token_idx) else c.balance_of a,
          owner_of := fun t => if t = id then none else c.owner_of t,
          get_approved := fun t => if t = id then none else c.get_approved t },
        oi.address, l.length - 1) := by
  simp [internal_remove_token, ho, hb, hlast, swapRemove_length]

lemma internal_remove_token_swap (c : NftContract) (id : TokenId) (oi mi : OwnerInfo)
    (l : List TokenId) (ho : c.owner_of id = some oi)
    (hb : c.balance_of oi.address = some l) (hidx : oi.token_idx < l.length - 1)
    (hmi : c.owner_of (l.getLastD 0) = some mi) :
    internal_remove_token c id = Except.ok
      ({ c with
          balance_of := fun a =>
            if a = oi.address then some (swapRemove l oi.token_idx) else c.balance_of a,
          owner_of := fun t =>
            if t = id then none
            else if t = l.getLastD 0 then some ⟨mi.address, oi.token_idx⟩
            else c.owner_of t,
          get_approved := fun t => if t = id then none else c.get_approved t },
        oi.address, l.length - 1) := by
  have hne : oi.token_idx ≠ l.length - 1 := Nat.ne_of_lt hidx
  have hget : (swapRemove l oi.token_idx)[oi.token_idx]? = some (l.getLastD 0) := by
    rw [swapRemove_getElem?]
    simp [hidx]
  have hmi' : c.owner_of (l.getLast?.getD 0) = some mi := by
    rw [← List.getLastD_eq_getLast?]
    exact hmi
  simp [internal_remove_token, ho, hb, hget, hmi, hmi', swapRemove_length, hne]

lemma owner_of_unique {c : NftContract} (hC : CrossConsistent c) {a b : Address}
    {la lb : List TokenId} {i j : Nat} {id : TokenId}
    (hba : c.balance_of a = some la) (hbb : c.balance_of b = some lb)
    (hia : la[i]? = some id) (hjb : lb[j]? = some id) : a = b ∧ i = j := by
  have h1 := hC.2 a la i id hba hia
  have h2 := hC.2 b lb j id hbb hjb
  rw [h1] at h2
  exact ⟨congrArg OwnerInfo.address (Option.some.inj h2),
    congrArg OwnerInfo.token_idx (Option.some.inj h2)⟩

lemma add_preserves (c : NftContract) (toAddr : Address) (id : TokenId)
    (hC : CrossConsistent c) (ho : c.owner_of id = none) :
    CrossConsistent (internal_add_token_to c toAddr id) := by
  obtain ⟨hfwd, hbwd⟩ := hC
  rw [internal_add_token_to_eq]
  set old : List TokenId := (c.balance_of toAddr).getD [] with hold
  have key : ∀ (i : Nat) (t : TokenId), old[i]? = some t → c.owner_of t = some ⟨toAddr, i⟩ := by
    intro i t h
    cases hbt : c.balance_of toAddr with
    | none => rw [hold, hbt] at h; simp at h
    | some lt => exact hbwd toAddr lt i t hbt (by rwa [hold, hbt] at h)
  constructor
  · -- forward direction
    intro t ti hti
    simp only at hti
    by_cases ht : t = id
    · rw [if_pos ht] at hti
      obtain rfl : (⟨toAddr, old.length⟩ : OwnerInfo) = ti := Option.some.inj hti
      refine ⟨old ++ [id], by simp, ?_⟩
      rw [List.getElem?_append]
      simp [ht]
    · rw [if_neg ht] at hti
      obtain ⟨lt, hbt, hgt⟩ := hfwd t ti hti
      by_cases ha : ti.address = toAddr
      · have hbt' : c.balance_of toAddr = some lt := by rw [← ha]; exact hbt
        have hlt : old = lt := by rw [hold, hbt']; rfl
        refine ⟨old ++ [id], by simp [ha], ?_⟩
        have hlen : ti.token_idx < old.length := hlt ▸ (List.getElem?_eq_some.mp hgt).1
        rw [List.getElem?_append, if_pos hlen, hlt]
        exact hgt
      · exact ⟨lt, by simp [ha, hbt], hgt⟩
  · -- backward direction
    intro a la i t hba hit
    simp only at hba ⊢
    by_cases ha : a = toAddr
    · rw [if_pos ha] at hba
      obtain rfl : old ++ [id] = la := Option.some.inj hba
      rcases Nat.lt_trichotomy i old.length with hi | hi | hi
      · have : old[i]? = some t := by
          rw [List.getElem?_append] at hit
          simpa [hi] using hit
        have hot := key i t this
        have ht : t ≠ id := by
          intro h
          rw [h, ho] at hot
          exact Option.noConfusion hot
        rw [if_neg ht, hot, ha]
      · have ht : t = id := by
          rw [List.getElem?_append] at hit
          rw [← hi] at hit
          simp at hit
          exact hit.symm
        subst ht
        rw [if_pos rfl, ha]
        rw [← hi]
      · exfalso
        rw [List.getElem?_append] at hit
        have h1 : ¬ i < old.length := by omega
        have h2 : ¬ i - old.length < 1 := by omega
        rw [if_neg h1] at hit
        rw [List.getElem?_eq_none (by simp only [List.length_singleton]; omega)] at hit
        exact Option.noConfusion hit
    · rw [if_neg ha] at hba
      have hot := hbwd a la i t hba hit
      have ht : t ≠ id := by
        intro h
        rw [h, ho] at hot
        exact Option.noConfusion hot
      rw [if_neg ht, hot]

lemma exceptPure_eq_ok {α : Type} (x : α) : (pure x : Except NftError α) = Except.ok x := rfl

lemma exceptBind_throw {α β : Type} (e : NftError) (f : α → Except NftError β) :
    (throw e : Except NftError α) >>= f = Except.error e := rfl

lemma exceptBind_pure {α β : Type} (x : α) (f : α → Except NftError β) :
    (pure x : Except NftError α) >>= f = f x := rfl

lemma exceptMap_throw {α β : Type} (e : NftError) (f : α → β) :
    f <$> (throw e : Except NftError α) = Except.error e := rfl

lemma internal_remove_token_ok (c : NftContract) (id : TokenId) (c' : NftContract)
    (a : Address) (n : Nat) (h : internal_remove_token c id = Except.ok (c', a, n)) :
    c'.owner_of id = none ∧
    (∀ t, t ≠ id → ((c'.owner_of t).isSome ↔ (c.owner_of t).isSome)) ∧
    c'.get_approved id = none ∧
    (∀ t, t ≠ id → c'.get_approved t = c.get_approved t) ∧
    c'.burned_nfts = c.burned_nfts ∧
    c'.minted_total = c.minted_total ∧
    c'.current_token_id = c.current_token_id ∧
    c'.is_approved_for_all = c.is_approved_for_all ∧
    (∀ b, (c'.balance_of b).isSome ↔ (c.balance_of b).isSome) ∧
    (c.owner_of id).isSome := by
  cases hoc : c.owner_of id with
  | none => simp [internal_remove_token, hoc, exceptBind_throw, exceptBind_pure] at h
  | some oi =>
    cases hbc : c.balance_of oi.address with
    | none => simp [internal_remove_token, hoc, hbc, exceptBind_throw, exceptBind_pure] at h
    | some l =>
      by_cases hl : oi.token_idx = l.length - 1
      · rw [internal_remove_token_last c id oi l hoc hbc hl] at h
        simp only [Except.ok.injEq, Prod.mk.injEq] at h
        obtain ⟨rfl, rfl, rfl⟩ := h
        refine ⟨by simp, ?_, by simp, ?_, rfl, rfl, rfl, rfl, ?_, by simp [hoc]⟩
        · intro t ht
          simp [ht]
        · intro t ht
          simp [ht]
        · intro b
          by_cases hab : b = oi.address <;> simp [hab, hbc]
      · cases hnb : (swapRemove l oi.token_idx)[oi.token_idx]? with
        | none =>
          simp [internal_remove_token, hoc, hbc, hl, hnb, exceptBind_throw,
            exceptBind_pure, exceptMap_throw] at h
        | some m =>
          cases hom : c.owner_of m with
          | none =>
            simp [internal_remove_token, hoc, hbc, hl, hnb, hom, exceptBind_throw,
              exceptBind_pure, exceptMap_throw] at h
          | some mi =>
            simp only [internal_remove_token, hoc, hbc, hl, hnb, hom, beq_iff_eq,
              if_neg hl, exceptBind_throw, exceptBind_pure, exceptPure_eq_ok,
              Except.ok.injEq, Prod.mk.injEq] at h
            obtain ⟨rfl, rfl, rfl⟩ := h
            refine ⟨by simp, ?_, by simp, ?_, rfl, rfl, rfl, rfl, ?_, by simp [hoc]⟩
            · intro t ht
              by_cases htm : t = m
              · subst htm
                simp [ht, hom]
              · simp [ht, htm]
            · intro t ht
              simp [ht]
            · intro b
              by_cases hab : b = oi.address <;> simp [hab, hbc]

lemma remove_preserves (c : NftContract) (id : TokenId) (oi : OwnerInfo)
    (hC : CrossConsistent c) (ho : c.owner_of id = some oi) :
    ∃ c' n, internal_remove_token c id = Except.ok (c', oi.address, n) ∧ CrossConsistent c' := by
  obtain ⟨hfwd, hbwd⟩ := hC
  obtain ⟨l, hb, hgl⟩ := hfwd id oi ho
  have hlen : oi.token_idx < l.length := (List.getElem?_eq_some.mp hgl).1
  have hlne : l ≠ [] := by
    intro h
    rw [h] at hgl
    simp at hgl
  have hlast : l[l.length - 1]? = some (l.getLastD 0) := getElem?_last hlne
  have hmo : c.owner_of (l.getLastD 0) = some ⟨oi.address, l.length - 1⟩ :=
    hbwd oi.address l (l.length - 1) (l.getLastD 0) hb hlast
  by_cases hl : oi.token_idx = l.length - 1
  · -- tail removal
    have hgid : l.getLastD 0 = id := by
      rw [hl] at hgl
      exact Option.some.inj (hlast.symm.trans hgl)
    refine ⟨_, _, internal_remove_token_last c id oi l ho hb hl, ?_, ?_⟩
    · intro t ti hti
      dsimp only at hti
      by_cases ht : t = id
      · rw [if_pos ht] at hti
        exact absurd hti (by simp)
      · rw [if_neg ht] at hti
        obtain ⟨lt, hbt, hgt⟩ := hfwd t ti hti
        by_cases ha : ti.address = oi.address
        · have hbt' : c.balance_of oi.address = some lt := by rw [← ha]; exact hbt
          have hltl : lt = l := Option.some.inj (hbt'.symm.trans hb)
          subst hltl
          have hti_lt : ti.token_idx < lt.length := (List.getElem?_eq_some.mp hgt).1
          have htne : ti.token_idx ≠ lt.length - 1 := by
            intro hx
            apply ht
            rw [hx] at hgt
            rw [← hgid]
            exact (Option.some.inj (hlast.symm.trans hgt)).symm
          refine ⟨swapRemove lt oi.token_idx, ?_, ?_⟩
          · dsimp only
            rw [ha, if_pos rfl]
          · rw [swapRemove_getElem?, if_pos (by omega), if_neg (by omega)]
            exact hgt
        · refine ⟨lt, ?_, hgt⟩
          dsimp only
          rw [if_neg ha]
          exact hbt
    · intro b lb i t hbb hit
      dsimp only at hbb ⊢
      by_cases hab : b = oi.address
      · rw [if_pos hab] at hbb
        obtain rfl := Option.some.inj hbb
        rw [swapRemove_getElem?] at hit
        by_cases hi : i < l.length - 1
        · rw [if_pos hi] at hit
          by_cases hii : i = oi.token_idx
          · exact absurd (hii.trans hl) (by omega)
          · rw [if_neg hii] at hit
            have hot := hbwd oi.address l i t hb hit
            have htne2 : t ≠ id := by
              intro hx
              rw [hx, ho] at hot
              have := congrArg OwnerInfo.token_idx (Option.some.inj hot)
              dsimp only at this
              omega
            rw [if_neg htne2, hot, hab]
        · rw [if_neg hi] at hit
          exact absurd hit (by simp)
      · rw [if_neg hab] at hbb
        have hot := hbwd b lb i t hbb hit
        have htne2 : t ≠ id := by
          intro hx
          rw [hx, ho] at hot
          apply hab
          exact (congrArg OwnerInfo.address (Option.some.inj hot)).symm
        rw [if_neg htne2, hot]
  · -- interior removal with swap
    have hidx : oi.token_idx < l.length - 1 := by omega
    have hmne : l.getLastD 0 ≠ id := by
      intro hx
      rw [hx, ho] at hmo
      have := congrArg OwnerInfo.token_idx (Option.some.inj hmo)
      dsimp only at this
      omega
    refine ⟨_, _,
      internal_remove_token_swap c id oi ⟨oi.address, l.length - 1⟩ l ho hb hidx hmo, ?_, ?_⟩
    · intro t ti hti
      dsimp only at hti
      by_cases ht : t = id
      · rw [if_pos ht] at hti
        exact absurd hti (by simp)
      · rw [if_neg ht] at hti
        by_cases htm : t = l.getLastD 0
        · rw [if_pos htm] at hti
          obtain rfl := Option.some.inj hti
          refine ⟨swapRemove l oi.token_idx, ?_, ?_⟩
          · dsimp only
            rw [if_pos rfl]
          · dsimp only
            rw [swapRemove_getElem?, if_pos hidx, if_pos rfl, htm]
        · rw [if_neg htm] at hti
          obtain ⟨lt, hbt, hgt⟩ := hfwd t ti hti
          by_cases ha : ti.address = oi.address
          · have hbt' : c.balance_of oi.address = some lt := by rw [← ha]; exact hbt
            have hltl : lt = l := Option.some.inj (hbt'.symm.trans hb)
            subst hltl
            have hti_lt : ti.token_idx < lt.length := (List.getElem?_eq_some.mp hgt).1
            have h1 : ti.token_idx ≠ oi.token_idx := by
              intro hx
              apply ht
              rw [hx] at hgt
              exact (Option.some.inj (hgl.symm.trans hgt)).symm
            have h2 : ti.token_idx ≠ lt.length - 1 := by
              intro hx
              apply htm
              rw [hx] at hgt
              exact (Option.some.inj (hlast.symm.trans hgt)).symm
            refine ⟨swapRemove lt oi.token_idx, ?_, ?_⟩
            · dsimp only
              rw [ha, if_pos rfl]
            · rw [swapRemove_getElem?, if_pos (by omega), if_neg h1]
              exact hgt
          · refine ⟨lt, ?_, hgt⟩
            dsimp only
            rw [if_neg ha]
            exact hbt
    · intro b lb i t hbb hit
      dsimp only at hbb ⊢
      by_cases hab : b = oi.address
      · rw [if_pos hab] at hbb
        obtain rfl := Option.some.inj hbb
        rw [swapRemove_getElem?] at hit
        by_cases hi : i < l.length - 1
        · rw [if_pos hi] at hit
          by_cases hii : i = oi.token_idx
          · rw [if_pos hii] at hit
            have htg : t = l.getLastD 0 := (Option.some.inj hit).symm
            have htne2 : t ≠ id := by
              rw [htg]
              exact hmne
            rw [if_neg htne2, if_pos htg, hab, hii]
          · rw [if_neg hii] at hit
            have hot := hbwd oi.address l i t hb hit
            have htne2 : t ≠ id := by
              intro hx
              rw [hx, ho] at hot
              have := congrArg OwnerInfo.token_idx (Option.some.inj hot)
              dsimp only at this
              omega
            have htne3 : t ≠ l.getLastD 0 := by
              intro hx
              rw [hx, hmo] at hot
              have := congrArg OwnerInfo.token_idx (Option.some.inj hot)
              dsimp only at this
              omega
            rw [if_neg htne2, if_neg htne3, hot, hab]
        · rw [if_neg hi] at hit
          exact absurd hit (by simp)
      · rw [if_neg hab] at hbb
        have hot := hbwd b lb i t hbb hit
        have htne2 : t ≠ id := by
          intro hx
          rw [hx, ho] at hot
          apply hab
          exact (congrArg OwnerInfo.address (Option.some.inj hot)).symm
        have htne3 : t ≠ l.getLastD 0 := by
          intro hx
          rw [hx, hmo] at hot
          apply hab
          exact (congrArg OwnerInfo.address (Option.some.inj hot)).symm
        rw [if_neg htne2, if_neg htne3, hot]

lemma allocCount_congr (c c' : NftContract)
    (h : ∀ t, ((c'.owner_of t).isSome ∨ c'.burned_nfts t = true) ↔
      ((c.owner_of t).isSome ∨ c.burned_nfts t = true)) :
    allocCount c' = allocCount c := by
  unfold allocCount
  exact congrArg Finset.card (Finset.filter_congr fun x _ => h x)

lemma allocCount_flip (c c' : NftContract) (id : TokenId) (hle : id ≤ L1X_NFT_TOTAL_SUPPLY)
    (hold : ¬ ((c.owner_of id).isSome ∨ c.burned_nfts id = true))
    (hnew : (c'.owner_of id).isSome ∨ c'.burned_nfts id = true)
    (hother : ∀ t, t ≠ id → (((c'.owner_of t).isSome ∨ c'.burned_nfts t = true) ↔
      ((c.owner_of t).isSome ∨ c.burned_nfts t = true))) :
    allocCount c' = allocCount c + 1 := by
  unfold allocCount
  have hins : (Finset.range (L1X_NFT_TOTAL_SUPPLY + 1)).filter
      (fun t => (c'.owner_of t).isSome ∨ c'.burned_nfts t = true) =
      insert id ((Finset.range (L1X_NFT_TOTAL_SUPPLY + 1)).filter
        (fun t => (c.owner_of t).isSome ∨ c.burned_nfts t = true)) := by
    ext t
    simp only [Finset.mem_insert, Finset.mem_filter, Finset.mem_range]
    constructor
    · intro ⟨hr, hp⟩
      by_cases ht : t = id
      · exact Or.inl ht
      · exact Or.inr ⟨hr, (hother t ht).mp hp⟩
    · intro hcase
      rcases hcase with rfl | ⟨hr, hp⟩
      · exact ⟨Nat.lt_succ_of_le hle, hnew⟩
      · by_cases ht : t = id
        · subst ht
          exact absurd hp hold
        · exact ⟨hr, (hother t ht).mpr hp⟩
  rw [hins, Finset.card_insert_of_not_mem]
  simp only [Finset.mem_filter, Finset.mem_range, not_and]
  intro _
  exact hold

lemma init_inv : RegistryInv initContract := by
  refine ⟨⟨?_, ?_⟩, ?_, ?_, ?_⟩
  · intro t ti hti
    exact absurd hti (by simp [initContract])
  · intro a la i t hba hit
    exact absurd hba (by simp [initContract])
  · intro t ht
    exact absurd ht (by simp [initContract])
  · intro t ht
    exact absurd ht (by simp [initContract])
  · simp [initContract, allocCount]

/-- The state produced by a successful `mint_id_to` (add plus counter bump);
proof-layer abbreviation for the literal state. -/
def afterMint (c : NftContract) (toAddr : Address) (id : TokenId) : NftContract :=
  let c1 := internal_add_token_to c toAddr id
  { c1 with minted_total := c1.minted_total + 1 }

lemma afterMint_owner_of (c : NftContract) (toAddr : Address) (id t : TokenId) :
    (afterMint c toAddr id).owner_of t =
      if t = id then some ⟨toAddr, ((c.balance_of toAddr).getD []).length⟩
      else c.owner_of t := by
  unfold afterMint
  rw [internal_add_token_to_eq]

lemma afterMint_balance_of (c : NftContract) (toAddr : Address) (id : TokenId) (a : Address) :
    (afterMint c toAddr id).balance_of a =
      if a = toAddr then some (((c.balance_of toAddr).getD []) ++ [id])
      else c.balance_of a := by
  unfold afterMint
  rw [internal_add_token_to_eq]

lemma afterMint_burned (c : NftContract) (toAddr : Address) (id : TokenId) :
    (afterMint c toAddr id).burned_nfts = c.burned_nfts := by
  unfold afterMint
  rw [internal_add_token_to_eq]

lemma afterMint_minted (c : NftContract) (toAddr : Address) (id : TokenId) :
    (afterMint c toAddr id).minted_total = c.minted_total + 1 := by
  unfold afterMint
  rw [internal_add_token_to_eq]

lemma mint_id_to_ok (c : NftContract) (toAddr : Address) (id : TokenId)
    (hbu : c.burned_nfts id = false) (ho : c.owner_of id = none)
    (hle : id ≤ L1X_NFT_TOTAL_SUPPLY) :
    mint_id_to c toAddr id = Except.ok (afterMint c toAddr id, id) := by
  unfold mint_id_to afterMint
  simp [hbu, ho, Nat.not_lt.mpr hle]

lemma mint_id_to_inv (c c1 : NftContract) (toAddr : Address) (id nid : TokenId)
    (hInv : RegistryInv c) (h : mint_id_to c toAddr id = Except.ok (c1, nid)) :
    RegistryInv c1 := by
  obtain ⟨hC, hbl, hbb, hcount⟩ := hInv
  cases hbu : c.burned_nfts id with
  | true => simp [mint_id_to, hbu] at h
  | false =>
  cases hoc : c.owner_of id with
  | some oi => simp [mint_id_to, hbu, hoc] at h
  | none =>
  by_cases hle : L1X_NFT_TOTAL_SUPPLY < id
  · simp [mint_id_to, hbu, hoc, hle] at h
  · have hle' : id ≤ L1X_NFT_TOTAL_SUPPLY := Nat.not_lt.mp hle
    rw [mint_id_to_ok c toAddr id hbu hoc hle'] at h
    simp only [Except.ok.injEq, Prod.mk.injEq] at h
    obtain ⟨rfl, rfl⟩ := h
    refine ⟨?_, ?_, ?_, ?_⟩
    · exact add_preserves c toAddr id hC hoc
    · intro t ht
      rw [afterMint_owner_of] at ht
      by_cases htid : t = id
      · rw [htid]
        exact hle'
      · rw [if_neg htid] at ht
        exact hbl t ht
    · intro t ht
      rw [afterMint_burned] at ht
      exact hbb t ht
    · rw [afterMint_minted, hcount]
      refine (allocCount_flip c _ id hle' ?_ ?_ ?_).symm
      · rw [hoc, hbu]
        simp
      · rw [afterMint_owner_of, if_pos rfl]
        simp
      · intro t ht
        rw [afterMint_owner_of, if_neg ht, afterMint_burned]

lemma add_owner_of (c : NftContract) (toAddr : Address) (id t : TokenId) :
    (internal_add_token_to c toAddr id).owner_of t =
      if t = id then some ⟨toAddr, ((c.balance_of toAddr).getD []).length⟩
      else c.owner_of t := by
  rw [internal_add_token_to_eq]

lemma add_balance_of (c : NftContract) (toAddr : Address) (id : TokenId) (a : Address) :
    (internal_add_token_to c toAddr id).balance_of a =
      if a = toAddr then some (((c.balance_of toAddr).getD []) ++ [id])
      else c.balance_of a := by
  rw [internal_add_token_to_eq]

lemma add_burned (c : NftContract) (toAddr : Address) (id : TokenId) :
    (internal_add_token_to c toAddr id).burned_nfts = c.burned_nfts := by
  rw [internal_add_token_to_eq]

lemma add_minted (c : NftContract) (toAddr : Address) (id : TokenId) :
    (internal_add_token_to c toAddr id).minted_total = c.minted_total := by
  rw [internal_add_token_to_eq]

lemma add_get_approved (c : NftContract) (toAddr : Address) (id : TokenId) :
    (internal_add_token_to c toAddr id).get_approved = c.get_approved := by
  rw [internal_add_token_to_eq]

lemma except_cases {α : Type} (e : Except NftError α) :
    (∃ err, e = Except.error err) ∨ (∃ x, e = Except.ok x) := by
  cases e with
  | error err => exact Or.inl ⟨err, rfl⟩
  | ok x => exact Or.inr ⟨x, rfl⟩

lemma burn_inv (c c1 : NftContract) (caller co : Address) (id : TokenId)
    (hInv : RegistryInv c) (h : burn c caller co id = Except.ok c1) : RegistryInv c1 := by
  obtain ⟨hC, hbl, hbb, hcount⟩ := hInv
  by_cases hcal : caller = co
  case neg => simp [burn, hcal] at h
  case pos =>
  obtain hoc | ⟨oi, hoc⟩ := Option.eq_none_or_eq_some (c.owner_of id)
  · simp [burn, hcal, hoc] at h
  · obtain ⟨cr, n, hrem, hCr⟩ := remove_preserves c id oi hC hoc
    obtain ⟨hrid, hriff, _hga, _hgaf, hrburn, hrmint, _hrcur, _hrop, _hrbal, _⟩ :=
      internal_remove_token_ok c id cr oi.address n hrem
    simp only [burn, hcal, hoc, hrem, ne_eq, not_true_eq_false, if_false, Option.isNone_some,
      Bool.false_eq_true, Except.ok.injEq] at h
    obtain rfl := h
    refine ⟨hCr, ?_, ?_, ?_⟩
    · intro t ht
      dsimp only at ht
      by_cases htid : t = id
      · rw [htid, hrid] at ht
        simp at ht
      · exact hbl t ((hriff t htid).mp ht)
    · intro t ht
      dsimp only at ht
      by_cases htid : t = id
      · rw [htid]
        apply hbl id
        rw [hoc]
        simp
      · rw [if_neg htid, hrburn] at ht
        exact hbb t ht
    · dsimp only
      rw [hrmint, hcount]
      refine (allocCount_congr c _ ?_).symm
      intro t
      dsimp only
      by_cases htid : t = id
      · subst htid
        refine iff_of_true (Or.inr ?_) (Or.inl ?_)
        · rw [if_pos rfl]
        · rw [hoc]
          simp
      · rw [if_neg htid, hrburn]
        exact or_congr (hriff t htid) Iff.rfl

lemma transfer_inv (c c1 : NftContract) (caller from' toAddr : Address) (id : TokenId)
    (hInv : RegistryInv c) (h : transfer_from c caller from' toAddr id = Except.ok c1) :
    RegistryInv c1 := by
  obtain ⟨hC, hbl, hbb, hcount⟩ := hInv
  obtain hoc | ⟨oi, hoc⟩ := Option.eq_none_or_eq_some (c.owner_of id)
  · simp [transfer_from, hoc] at h
  · by_cases hfrom : from' = oi.address
    case neg => simp [transfer_from, hoc, hfrom] at h
    case pos =>
    cases hauth : (oi.address == caller ||
        ((c.is_approved_for_all oi.address).bind fun m => m caller).getD false ||
        c.get_approved id == some caller) with
    | false => simp [transfer_from, hoc, hfrom, hauth] at h
    | true =>
    obtain ⟨cr, n, hrem, hCr⟩ := remove_preserves c id oi hC hoc
    obtain ⟨hrid, hriff, _hga, _hgaf, hrburn, hrmint, _hrcur, _hrop, _hrbal, _⟩ :=
      internal_remove_token_ok c id cr oi.address n hrem
    simp only [transfer_from, hoc, hfrom, hauth, hrem, ne_eq, not_true_eq_false, if_false,
      if_true, Except.ok.injEq] at h
    obtain rfl := h
    refine ⟨add_preserves cr toAddr id hCr hrid, ?_, ?_, ?_⟩
    · intro t ht
      rw [add_owner_of] at ht
      by_cases htid : t = id
      · rw [htid]
        apply hbl id
        rw [hoc]
        simp
      · rw [if_neg htid] at ht
        exact hbl t ((hriff t htid).mp ht)
    · intro t ht
      rw [add_burned, hrburn] at ht
      exact hbb t ht
    · rw [add_minted, hrmint, hcount]
      refine (allocCount_congr c _ ?_).symm
      intro t
      rw [add_owner_of, add_burned, hrburn]
      by_cases htid : t = id
      · refine iff_of_true (Or.inl ?_) (Or.inl ?_)
        · rw [if_pos htid]
          simp
        · rw [htid, hoc]
          simp
      · rw [if_neg htid]
        exact or_congr (hriff t htid) Iff.rfl

lemma approve_inv (c c1 : NftContract) (caller spender : Address) (id : TokenId)
    (hInv : RegistryInv c) (h : approve c caller spender id = Except.ok c1) : RegistryInv c1 := by
  obtain hoc | ⟨oi, hoc⟩ := Option.eq_none_or_eq_some (c.owner_of id)
  · simp [approve, hoc] at h
  · by_cases hau : (caller == oi.address ||
        ((c.is_approved_for_all oi.address).bind fun m => m caller).getD false) = true
    · simp only [approve, hoc, hau, if_true, Except.ok.injEq] at h
      obtain rfl := h
      exact hInv
    · simp [approve, hoc, hau] at h

lemma set_approval_inv (c : NftContract) (caller operator : Address) (approved : Bool)
    (hInv : RegistryInv c) : RegistryInv (set_approval_for_all c caller operator approved) := by
  exact hInv

lemma mint_to_inv (c c1 : NftContract) (toAddr : Address) (nid : TokenId)
    (hInv : RegistryInv c) (h : mint_to c toAddr = Except.ok (c1, nid)) : RegistryInv c1 := by
  unfold mint_to at h
  by_cases hfound : L1X_NFT_TOTAL_SUPPLY < find_next_id c.owner_of (c.current_token_id + 1)
  · rw [if_pos hfound] at h
    exact absurd h (by simp)
  · rw [if_neg hfound] at h
    exact mint_id_to_inv
      { c with current_token_id := find_next_id c.owner_of (c.current_token_id + 1) }
      c1 toAddr (find_next_id c.owner_of (c.current_token_id + 1)) nid hInv h

lemma applyOp_inv (co : Address) (c : NftContract) (op : Op) (hInv : RegistryInv c) :
    RegistryInv (applyOp co c op) := by
  unfold applyOp
  obtain ⟨e, hr⟩ | ⟨c', hr⟩ := except_cases (runOp co c op)
  · rw [hr]
    exact hInv
  · rw [hr]
    cases op with
    | mint caller toAddr =>
      simp only [runOp] at hr
      obtain ⟨e, hm⟩ | ⟨⟨c2, nid⟩, hm⟩ := except_cases (mint_to c toAddr)
      · rw [hm] at hr
        exact absurd hr (by simp)
      · rw [hm] at hr
        simp only [Except.ok.injEq] at hr
        obtain rfl := hr
        exact mint_to_inv c c2 toAddr nid hInv hm
    | mintId caller toAddr id =>
      simp only [runOp] at hr
      obtain ⟨e, hm⟩ | ⟨⟨c2, nid⟩, hm⟩ := except_cases (mint_id_to c toAddr id)
      · rw [hm] at hr
        exact absurd hr (by simp)
      · rw [hm] at hr
        simp only [Except.ok.injEq] at hr
        obtain rfl := hr
        exact mint_id_to_inv c c2 toAddr id nid hInv hm
    | burnOp caller id =>
      simp only [runOp] at hr
      exact burn_inv c c' caller co id hInv hr
    | approveOp caller spender id =>
      simp only [runOp] at hr
      exact approve_inv c c' caller spender id hInv hr
    | setApprovalForAll caller operator approved =>
      simp only [runOp, Except.ok.injEq] at hr
      obtain rfl := hr
      exact set_approval_inv c caller operator approved hInv
    | transfer caller from' toAddr id =>
      simp only [runOp] at hr
      exact transfer_inv c c' caller from' toAddr id hInv hr

lemma applyOps_inv (co : Address) (c : NftContract) (ops : List Op) (hInv : RegistryInv c) :
    RegistryInv (applyOps co c ops) := by
  induction ops generalizing c with
  | nil => exact hInv
  | cons op ops ih => exact ih (applyOp co c op) (applyOp_inv co c op hInv)

lemma find_next_id_ge (f : TokenId → Option OwnerInfo) (s : Nat) : s ≤ find_next_id f s := by
  have key : ∀ n s, L1X_NFT_TOTAL_SUPPLY + 1 - s ≤ n → s ≤ find_next_id f s := by
    intro n
    induction n with
    | zero =>
      intro s hs
      rw [find_next_id_unfold, if_pos (by omega)]
    | succ n ih =>
      intro s hs
      rw [find_next_id_unfold]
      by_cases h1 : L1X_NFT_TOTAL_SUPPLY < s
      · rw [if_pos h1]
      · rw [if_neg h1]
        by_cases h2 : (f s).isNone
        · rw [if_pos h2]
        · rw [if_neg h2]
          exact Nat.le_trans (Nat.le_succ s) (ih (s + 1) (by omega))
  exact key (L1X_NFT_TOTAL_SUPPLY + 1 - s) s le_rfl

lemma find_next_id_eq_target (f : TokenId → Option OwnerInfo) (s target : Nat)
    (hs : s ≤ target) (ht : target ≤ L1X_NFT_TOTAL_SUPPLY)
    (hlive : ∀ j, s ≤ j → j < target → (f j).isSome)
    (hfree : f target = none) : find_next_id f s = target := by
  have key : ∀ n s, target - s ≤ n → s ≤ target →
      (∀ j, s ≤ j → j < target → (f j).isSome) → find_next_id f s = target := by
    intro n
    induction n with
    | zero =>
      intro s hn hs' _
      have : s = target := by omega
      subst this
      rw [find_next_id_unfold, if_neg (by omega), if_pos (by rw [hfree]; rfl)]
    | succ n ih =>
      intro s hn hs' hlive'
      by_cases hst : s = target
      · subst hst
        rw [find_next_id_unfold, if_neg (by omega), if_pos (by rw [hfree]; rfl)]
      · have hlt : s < target := by omega
        have hsome := hlive' s le_rfl hlt
        rw [find_next_id_unfold, if_neg (by omega),
          if_neg (by rw [Option.isNone_iff_eq_none]; intro hx; rw [hx] at hsome; simp at hsome)]
        exact ih (s + 1) (by omega) (by omega) (fun j hj1 hj2 => hlive' j (by omega) hj2)
  exact key (target - s) s le_rfl hs hlive

lemma find_next_id_all_live (f : TokenId → Option OwnerInfo) (s : Nat)
    (hlive : ∀ j, 1 ≤ j → j ≤ L1X_NFT_TOTAL_SUPPLY → (f j).isSome) (hs : 1 ≤ s) :
    L1X_NFT_TOTAL_SUPPLY < find_next_id f s := by
  have key : ∀ n s, L1X_NFT_TOTAL_SUPPLY + 1 - s ≤ n → 1 ≤ s →
      L1X_NFT_TOTAL_SUPPLY < find_next_id f s := by
    intro n
    induction n with
    | zero =>
      intro s hn _
      rw [find_next_id_unfold, if_pos (by omega)]
      omega
    | succ n ih =>
      intro s hn hs'
      by_cases h1 : L1X_NFT_TOTAL_SUPPLY < s
      · rw [find_next_id_unfold, if_pos h1]
        omega
      · have hsome := hlive s hs' (by omega)
        rw [find_next_id_unfold, if_neg h1,
          if_neg (by rw [Option.isNone_iff_eq_none]; intro hx; rw [hx] at hsome; simp at hsome)]
        exact ih (s + 1) (by omega) (by omega)
  exact key (L1X_NFT_TOTAL_SUPPLY + 1 - s) s le_rfl hs

lemma mint_id_to_ok_inv (c c2 : NftContract) (toAddr : Address) (idm nid : TokenId)
    (h : mint_id_to c toAddr idm = Except.ok (c2, nid)) :
    nid = idm ∧ c.burned_nfts idm = false ∧ c.owner_of idm = none ∧
    idm ≤ L1X_NFT_TOTAL_SUPPLY ∧ c2 = afterMint c toAddr idm := by
  cases hbu : c.burned_nfts idm with
  | true => simp [mint_id_to, hbu] at h
  | false =>
  obtain hoc | ⟨oi, hoc⟩ := Option.eq_none_or_eq_some (c.owner_of idm)
  · by_cases hle : L1X_NFT_TOTAL_SUPPLY < idm
    · simp [mint_id_to, hbu, hoc, hle] at h
    · rw [mint_id_to_ok c toAddr idm hbu hoc (Nat.not_lt.mp hle)] at h
      simp only [Except.ok.injEq, Prod.mk.injEq] at h
      obtain ⟨rfl, rfl⟩ := h
      exact ⟨rfl, rfl, hoc, Nat.not_lt.mp hle, rfl⟩
  · simp [mint_id_to, hbu, hoc] at h

lemma mint_to_ok_inv (c c2 : NftContract) (toAddr : Address) (nid : TokenId)
    (h : mint_to c toAddr = Except.ok (c2, nid)) :
    nid = find_next_id c.owner_of (c.current_token_id + 1) ∧
    nid ≤ L1X_NFT_TOTAL_SUPPLY ∧ c.burned_nfts nid = false ∧ c.owner_of nid = none ∧
    c.current_token_id + 1 ≤ nid ∧
    c2 = afterMint { c with current_token_id := nid } toAddr nid := by
  unfold mint_to at h
  by_cases hfound : L1X_NFT_TOTAL_SUPPLY < find_next_id c.owner_of (c.current_token_id + 1)
  · rw [if_pos hfound] at h
    exact absurd h (by simp)
  · rw [if_neg hfound] at h
    obtain ⟨h1, h2, h3, h4, h5⟩ :=
      mint_id_to_ok_inv _ c2 toAddr (find_next_id c.owner_of (c.current_token_id + 1)) nid h
    subst h1
    exact ⟨rfl, Nat.not_lt.mp hfound, h2, h3, find_next_id_ge _ _, h5⟩

lemma burn_ok_facts (c c1 : NftContract) (caller co : Address) (id : TokenId)
    (h : burn c caller co id = Except.ok c1) :
    c1.burned_nfts id = true ∧ c1.owner_of id = none ∧
    (∀ t, t ≠ id → c1.burned_nfts t = c.burned_nfts t) ∧
    (∀ t, t ≠ id → ((c1.owner_of t).isSome ↔ (c.owner_of t).isSome)) ∧
    (∀ b, (c1.balance_of b).isSome ↔ (c.balance_of b).isSome) ∧
    c1.get_approved id = none ∧
    (∀ t, t ≠ id → c1.get_approved t = c.get_approved t) := by
  by_cases hcal : caller = co
  case neg => simp [burn, hcal] at h
  case pos =>
  obtain hoc | ⟨oi, hoc⟩ := Option.eq_none_or_eq_some (c.owner_of id)
  · simp [burn, hcal, hoc] at h
  · obtain ⟨e, hrem⟩ | ⟨⟨cr, ar, nr⟩, hrem⟩ := except_cases (internal_remove_token c id)
    · simp [burn, hcal, hoc, hrem] at h
    · obtain ⟨hrid, hriff, hga, hgaf, hrburn, _, _, _, hrbal, _⟩ :=
        internal_remove_token_ok c id cr ar nr hrem
      simp only [burn, hcal, hoc, hrem, ne_eq, not_true_eq_false, if_false, Option.isNone_some,
        Bool.false_eq_true, Except.ok.injEq] at h
      obtain rfl := h
      refine ⟨by dsimp only; rw [if_pos rfl], hrid, ?_, ?_, hrbal, hga, hgaf⟩
      · intro t ht
        dsimp only
        rw [if_neg ht, hrburn]
      · intro t ht
        exact hriff t ht

lemma approve_ok_state (c c1 : NftContract) (caller spender : Address) (id : TokenId)
    (h : approve c caller spender id = Except.ok c1) :
    c1.owner_of = c.owner_of ∧ c1.balance_of = c.balance_of ∧
    c1.burned_nfts = c.burned_nfts ∧ c1.minted_total = c.minted_total ∧
    c1.get_approved id = some spender := by
  obtain hoc | ⟨oi, hoc⟩ := Option.eq_none_or_eq_some (c.owner_of id)
  · simp [approve, hoc] at h
  · by_cases hau : (caller == oi.address ||
        ((c.is_approved_for_all oi.address).bind fun m => m caller).getD false) = true
    · simp only [approve, hoc, hau, if_true, Except.ok.injEq] at h
      obtain rfl := h
      exact ⟨rfl, rfl, rfl, rfl, by dsimp only; rw [if_pos rfl]⟩
    · simp [approve, hoc, hau] at h

lemma set_approval_state (c : NftContract) (caller operator : Address) (approved : Bool) :
    (set_approval_for_all c caller operator approved).owner_of = c.owner_of ∧
    (set_approval_for_all c caller operator approved).balance_of = c.balance_of ∧
    (set_approval_for_all c caller operator approved).burned_nfts = c.burned_nfts ∧
    (set_approval_for_all c caller operator approved).get_approved = c.get_approved :=
  ⟨rfl, rfl, rfl, rfl⟩

lemma transfer_ok_inv (c c1 : NftContract) (caller from' toAddr : Address) (id : TokenId)
    (h : transfer_from c caller from' toAddr id = Except.ok c1) :
    (c.owner_of id).isSome ∧
    c1.get_approved id = none ∧
    (∀ t, t ≠ id → c1.get_approved t = c.get_approved t) ∧
    c1.burned_nfts = c.burned_nfts ∧
    (c1.owner_of id).isSome ∧
    (∀ t, t ≠ id → ((c1.owner_of t).isSome ↔ (c.owner_of t).isSome)) ∧
    (∀ b, (c.balance_of b).isSome → (c1.balance_of b).isSome) ∧
    (∀ b, b ≠ toAddr → ((c1.balance_of b).isSome ↔ (c.balance_of b).isSome)) := by
  obtain hoc | ⟨oi, hoc⟩ := Option.eq_none_or_eq_some (c.owner_of id)
  · simp [transfer_from, hoc] at h
  · by_cases hfrom : from' = oi.address
    case neg => simp [transfer_from, hoc, hfrom] at h
    case pos =>
    cases hauth : (oi.address == caller ||
        ((c.is_approved_for_all oi.address).bind fun m => m caller).getD false ||
        c.get_approved id == some caller) with
    | false => simp [transfer_from, hoc, hfrom, hauth] at h
    | true =>
    obtain ⟨e, hrem⟩ | ⟨⟨cr, ar, nr⟩, hrem⟩ := except_cases (internal_remove_token c id)
    · simp [transfer_from, hoc, hfrom, hauth, hrem] at h
    · obtain ⟨hrid, hriff, hga, hgaf, hrburn, _, _, _, hrbal, _⟩ :=
        internal_remove_token_ok c id cr ar nr hrem
      simp only [transfer_from, hoc, hfrom, hauth, hrem, ne_eq, not_true_eq_false, if_false,
        if_true, Except.ok.injEq] at h
      obtain rfl := h
      refine ⟨by rw [hoc]; rfl, ?_, ?_, ?_, ?_, ?_, ?_, ?_⟩
      · rw [add_get_approved]
        exact hga
      · intro t ht
        rw [add_get_approved]
        exact hgaf t ht
      · exact (add_burned cr toAddr id).trans hrburn
      · rw [add_owner_of, if_pos rfl]
        rfl
      · intro t ht
        rw [add_owner_of, if_neg ht]
        exact hriff t ht
      · intro b hbp
        rw [add_balance_of]
        by_cases hbt : b = toAddr
        · rw [if_pos hbt]
          rfl
        · rw [if_neg hbt]
          exact (hrbal b).mpr hbp
      · intro b hbt
        rw [add_balance_of, if_neg hbt]
        exact hrbal b

lemma dead_preserved (co : Address) (c : NftContract) (op : Op) (id : TokenId)
    (hb : c.burned_nfts id = true) (ho : c.owner_of id = none) :
    (applyOp co c op).burned_nfts id = true ∧ (applyOp co c op).owner_of id = none := by
  unfold applyOp
  obtain ⟨e, hr⟩ | ⟨c', hr⟩ := except_cases (runOp co c op)
  · rw [hr]
    exact ⟨hb, ho⟩
  · rw [hr]
    cases op with
    | mint caller toAddr =>
      simp only [runOp] at hr
      obtain ⟨e, hm⟩ | ⟨⟨c2, nid⟩, hm⟩ := except_cases (mint_to c toAddr)
      · rw [hm] at hr
        exact absurd hr (by simp)
      · rw [hm] at hr
        simp only [Except.ok.injEq] at hr
        obtain rfl := hr
        obtain ⟨_, _, hbu, _, _, hc2⟩ := mint_to_ok_inv c c2 toAddr nid hm
        subst hc2
        have hne : id ≠ nid := by
          intro hx
          rw [← hx, hb] at hbu
          exact Bool.noConfusion hbu
        constructor
        · rw [afterMint_burned]
          exact hb
        · rw [afterMint_owner_of, if_neg hne]
          exact ho
    | mintId caller toAddr idm =>
      simp only [runOp] at hr
      obtain ⟨e, hm⟩ | ⟨⟨c2, nid⟩, hm⟩ := except_cases (mint_id_to c toAddr idm)
      · rw [hm] at hr
        exact absurd hr (by simp)
      · rw [hm] at hr
        simp only [Except.ok.injEq] at hr
        obtain rfl := hr
        obtain ⟨_, hbu, _, _, hc2⟩ := mint_id_to_ok_inv c c2 toAddr idm nid hm
        subst hc2
        have hne : id ≠ idm := by
          intro hx
          rw [← hx, hb] at hbu
          exact Bool.noConfusion hbu
        constructor
        · rw [afterMint_burned]
          exact hb
        · rw [afterMint_owner_of, if_neg hne]
          exact ho
    | burnOp caller idb =>
      simp only [runOp] at hr
      obtain ⟨h1, h2, h3, h4, _, _, _⟩ := burn_ok_facts c c' caller co idb hr
      by_cases hx : id = idb
      · subst hx
        exact ⟨h1, h2⟩
      · constructor
        · rw [h3 id hx]
          exact hb
        · obtain hnone | ⟨x, hsome⟩ := Option.eq_none_or_eq_some (c'.owner_of id)
          · exact hnone
          · exfalso
            have hcontra := (h4 id hx).mp (by rw [hsome]; rfl)
            rw [ho] at hcontra
            simp at hcontra
    | approveOp caller spender idp =>
      simp only [runOp] at hr
      obtain ⟨ho1, _, hb1, _, _⟩ := approve_ok_state c c' caller spender idp hr
      exact ⟨by rw [hb1]; exact hb, by rw [ho1]; exact ho⟩
    | setApprovalForAll caller operator approved =>
      simp only [runOp, Except.ok.injEq] at hr
      obtain rfl := hr
      exact ⟨hb, ho⟩
    | transfer caller from' toAddr idt =>
      simp only [runOp] at hr
      obtain ⟨hpre, _, _, hburn1, _, hiff1, _, _⟩ := transfer_ok_inv c c' caller from' toAddr idt hr
      have hne : id ≠ idt := by
        intro hx
        rw [← hx, ho] at hpre
        simp at hpre
      constructor
      · rw [hburn1]
        exact hb
      · obtain hnone | ⟨x, hsome⟩ := Option.eq_none_or_eq_some (c'.owner_of id)
        · exact hnone
        · exfalso
          have hcontra := (hiff1 id hne).mp (by rw [hsome]; rfl)
          rw [ho] at hcontra
          simp at hcontra

lemma dead_preserved_ops (co : Address) (c : NftContract) (ops : List Op) (id : TokenId)
    (hb : c.burned_nfts id = true) (ho : c.owner_of id = none) :
    (applyOps co c ops).burned_nfts id = true ∧ (applyOps co c ops).owner_of id = none := by
  induction ops generalizing c with
  | nil => exact ⟨hb, ho⟩
  | cons op ops ih =>
    obtain ⟨hb', ho'⟩ := dead_preserved co c op id hb ho
    exact ih (applyOp co c op) hb' ho'

lemma applyOp_balance_mono (co : Address) (c : NftContract) (op : Op) (a : Address)
    (h : (c.balance_of a).isSome) : ((applyOp co c op).balance_of a).isSome := by
  unfold applyOp
  obtain ⟨e, hr⟩ | ⟨c', hr⟩ := except_cases (runOp co c op)
  · rw [hr]
    exact h
  · rw [hr]
    cases op with
    | mint caller toAddr =>
      simp only [runOp] at hr
      obtain ⟨e, hm⟩ | ⟨⟨c2, nid⟩, hm⟩ := except_cases (mint_to c toAddr)
      · rw [hm] at hr
        exact absurd hr (by simp)
      · rw [hm] at hr
        simp only [Except.ok.injEq] at hr
        obtain rfl := hr
        obtain ⟨_, _, _, _, _, hc2⟩ := mint_to_ok_inv c c2 toAddr nid hm
        subst hc2
        rw [afterMint_balance_of]
        by_cases hat : a = toAddr
        · rw [if_pos hat]
          rfl
        · rw [if_neg hat]
          exact h
    | mintId caller toAddr idm =>
      simp only [runOp] at hr
      obtain ⟨e, hm⟩ | ⟨⟨c2, nid⟩, hm⟩ := except_cases (mint_id_to c toAddr idm)
      · rw [hm] at hr
        exact absurd hr (by simp)
      · rw [hm] at hr
        simp only [Except.ok.injEq] at hr
        obtain rfl := hr
        obtain ⟨_, _, _, _, hc2⟩ := mint_id_to_ok_inv c c2 toAddr idm nid hm
        subst hc2
        rw [afterMint_balance_of]
        by_cases hat : a = toAddr
        · rw [if_pos hat]
          rfl
        · rw [if_neg hat]
          exact h
    | burnOp caller idb =>
      simp only [runOp] at hr
      obtain ⟨_, _, _, _, hbal, _, _⟩ := burn_ok_facts c c' caller co idb hr
      exact (hbal a).mpr h
    | approveOp caller spender idp =>
      simp only [runOp] at hr
      obtain ⟨_, hbal, _, _, _⟩ := approve_ok_state c c' caller spender idp hr
      rw [hbal]
      exact h
    | setApprovalForAll caller operator approved =>
      simp only [runOp, Except.ok.injEq] at hr
      obtain rfl := hr
      exact h
    | transfer caller from' toAddr idt =>
      simp only [runOp] at hr
      obtain ⟨_, _, _, _, _, _, hmono, _⟩ := transfer_ok_inv c c' caller from' toAddr idt hr
      exact hmono a h

lemma applyOp_balance_none (co : Address) (c : NftContract) (op : Op) (a : Address)
    (h : c.balance_of a = none) (hrecv : opReceives op a = false) :
    (applyOp co c op).balance_of a = none := by
  unfold applyOp
  obtain ⟨e, hr⟩ | ⟨c', hr⟩ := except_cases (runOp co c op)
  · rw [hr]
    exact h
  · rw [hr]
    cases op with
    | mint caller toAddr =>
      have hat : a ≠ toAddr := by
        intro hx
        simp [opReceives, hx] at hrecv
      simp only [runOp] at hr
      obtain ⟨e, hm⟩ | ⟨⟨c2, nid⟩, hm⟩ := except_cases (mint_to c toAddr)
      · rw [hm] at hr
        exact absurd hr (by simp)
      · rw [hm] at hr
        simp only [Except.ok.injEq] at hr
        obtain rfl := hr
        obtain ⟨_, _, _, _, _, hc2⟩ := mint_to_ok_inv c c2 toAddr nid hm
        subst hc2
        rw [afterMint_balance_of, if_neg hat]
        exact h
    | mintId caller toAddr idm =>
      have hat : a ≠ toAddr := by
        intro hx
        simp [opReceives, hx] at hrecv
      simp only [runOp] at hr
      obtain ⟨e, hm⟩ | ⟨⟨c2, nid⟩, hm⟩ := except_cases (mint_id_to c toAddr idm)
      · rw [hm] at hr
        exact absurd hr (by simp)
      · rw [hm] at hr
        simp only [Except.ok.injEq] at hr
        obtain rfl := hr
        obtain ⟨_, _, _, _, hc2⟩ := mint_id_to_ok_inv c c2 toAddr idm nid hm
        subst hc2
        rw [afterMint_balance_of, if_neg hat]
        exact h
    | burnOp caller idb =>
      simp only [runOp] at hr
      obtain ⟨_, _, _, _, hbal, _, _⟩ := burn_ok_facts c c' caller co idb hr
      obtain hnone | ⟨x, hsome⟩ := Option.eq_none_or_eq_some (c'.balance_of a)
      · exact hnone
      · exfalso
        have hcontra := (hbal a).mp (by rw [hsome]; rfl)
        rw [h] at hcontra
        simp at hcontra
    | approveOp caller spender idp =>
      simp only [runOp] at hr
      obtain ⟨_, hbal, _, _, _⟩ := approve_ok_state c c' caller spender idp hr
      rw [hbal]
      exact h
    | setApprovalForAll caller operator approved =>
      simp only [runOp, Except.ok.injEq] at hr
      obtain rfl := hr
      exact h
    | transfer caller from' toAddr idt =>
      have hat : a ≠ toAddr := by
        intro hx
        simp [opReceives, hx] at hrecv
      simp only [runOp] at hr
      obtain ⟨_, _, _, _, _, _, _, hiff⟩ := transfer_ok_inv c c' caller from' toAddr idt hr
      obtain hnone | ⟨x, hsome⟩ := Option.eq_none_or_eq_some (c'.balance_of a)
      · exact hnone
      · exfalso
        have hcontra := (hiff a hat).mp (by rw [hsome]; rfl)
        rw [h] at hcontra
        simp at hcontra

lemma applyOps_balance_mono (co : Address) (c : NftContract) (ops : List Op) (a : Address)
    (h : (c.balance_of a).isSome) : ((applyOps co c ops).balance_of a).isSome := by
  induction ops generalizing c with
  | nil => exact h
  | cons op ops ih => exact ih (applyOp co c op) (applyOp_balance_mono co c op a h)

lemma applyOps_balance_none (co : Address) (c : NftContract) (ops : List Op) (a : Address)
    (h : c.balance_of a = none) (hrecv : ∀ op ∈ ops, opReceives op a = false) :
    (applyOps co c ops).balance_of a = none := by
  induction ops generalizing c with
  | nil => exact h
  | cons op ops ih =>
    exact ih (applyOp co c op)
      (applyOp_balance_none co c op a h (hrecv op (List.mem_cons_self op ops)))
      (fun o ho => hrecv o (List.mem_cons_of_mem op ho))

lemma afterMint_cursor (c : NftContract) (toAddr : Address) (id : TokenId) :
    (afterMint c toAddr id).current_token_id = c.current_token_id := by
  unfold afterMint
  rw [internal_add_token_to_eq]

lemma applyOps_append (co : Address) (c : NftContract) (l1 l2 : List Op) :
    applyOps co c (l1 ++ l2) = applyOps co (applyOps co c l1) l2 := by
  induction l1 generalizing c with
  | nil => rfl
  | cons op l1 ih =>
    simp only [List.cons_append, applyOps]
    exact ih (applyOp co c op)

lemma owned_tokens_some (c : NftContract) (owner : Address) (l : List TokenId)
    (h : c.balance_of owner = some l) : owned_tokens c owner = Except.ok l := by
  unfold owned_tokens
  rw [h]
  show Except.ok (List.ofFn fun i : Fin l.length => l.get i) = Except.ok l
  congr 1
  have hfun : (fun i : Fin l.length => l.get i) = fun i : Fin l.length => l[(i : Nat)] := by
    funext i
    rw [List.get_eq_getElem]
  rw [hfun]
  exact List.ofFn_getElem l

/-- C8: failure atomicity — whenever a public operation's internal
implementation reports a typed failure, the stored registry state after the
call (load, run, save-on-success) is exactly the state before it. -/
theorem C8_failure_atomicity (co : Address) (c : NftContract) (op : Op) (e : NftError)
    (h : runOp co c op = Except.error e) : applyOp co c op = c := by
  unfold applyOp
  rw [h]

/-- C8 witness: a mint that advances the allocation cursor internally and
then fails the burned-set check with `AlreadyBurned` leaves the stored state
(cursor included) unchanged. -/
theorem C8_failure_atomicity_witness :
    runOp 0 (applyOps 0 initContract [Op.mintId 1 1 1, Op.burnOp 0 1]) (Op.mint 1 1) =
      Except.error NftError.AlreadyBurned ∧
    applyOp 0 (applyOps 0 initContract [Op.mintId 1 1 1, Op.burnOp 0 1]) (Op.mint 1 1) =
      applyOps 0 initContract [Op.mintId 1 1 1, Op.burnOp 0 1] :=
  ⟨rfl, C8_failure_atomicity 0 (applyOps 0 initContract [Op.mintId 1 1 1, Op.burnOp 0 1])
    (Op.mint 1 1) NftError.AlreadyBurned rfl⟩

/-- C9: `balance_of` returns the length of the owner's collection and `0`
when there is none; `owned_tokens` materializes the stored collection in
order and fails (`NoCollection`, the "Not enough funds" panic) exactly when
the owner has no collection at all — distinct from an empty collection. -/
theorem C9_query_behavior (c : NftContract) (owner : Address) :
    (c.balance_of owner = none →
      balanceOf c owner = 0 ∧ owned_tokens c owner = Except.error NftError.NoCollection) ∧
    (∀ l, c.balance_of owner = some l →
      balanceOf c owner = l.length ∧ owned_tokens c owner = Except.ok l) := by
  constructor
  · intro h
    constructor
    · unfold balanceOf
      rw [h]
    · unfold owned_tokens
      rw [h]
  · intro l h
    constructor
    · unfold balanceOf
      rw [h]
    · exact owned_tokens_some c owner l h

/-- C9 witness: in the state with one token minted to address 1, address 2
has no collection (count 0, enumeration fails) and address 1 has `[7]`. -/
theorem C9_query_behavior_witness :
    (balanceOf (applyOp 0 initContract (Op.mintId 1 1 7)) 2 = 0 ∧
      owned_tokens (applyOp 0 initContract (Op.mintId 1 1 7)) 2 =
        Except.error NftError.NoCollection) ∧
    (balanceOf (applyOp 0 initContract (Op.mintId 1 1 7)) 1 = 1 ∧
      owned_tokens (applyOp 0 initContract (Op.mintId 1 1 7)) 1 = Except.ok [7]) :=
  ⟨(C9_query_behavior (applyOp 0 initContract (Op.mintId 1 1 7)) 2).1 rfl,
    (C9_query_behavior (applyOp 0 initContract (Op.mintId 1 1 7)) 1).2 [7] rfl⟩

/-- C1: cross-structure consistency — after every operation sequence from
the initial state, every live identity's reverse-index entry points at a
slot of its owner's collection that holds exactly that identity, an
identity occurs in at most one collection slot overall, and every
collection slot holds a live identity. -/
theorem C1_cross_structure_consistency (co : Address) (ops : List Op) :
    (∀ id oi, (applyOps co initContract ops).owner_of id = some oi →
      ∃ l, (applyOps co initContract ops).balance_of oi.address = some l ∧
        l[oi.token_idx]? = some id) ∧
    (∀ (a : Address) (la : List TokenId) (i : Nat) (b : Address) (lb : List TokenId)
      (j : Nat) (id : TokenId), (applyOps co initContract ops).balance_of a = some la →
      (applyOps co initContract ops).balance_of b = some lb →
      la[i]? = some id → lb[j]? = some id → a = b ∧ i = j) ∧
    (∀ (a : Address) (la : List TokenId) (i : Nat) (id : TokenId),
      (applyOps co initContract ops).balance_of a = some la →
      la[i]? = some id → ((applyOps co initContract ops).owner_of id).isSome) := by
  obtain ⟨⟨hfwd, hbwd⟩, _, _, _⟩ := applyOps_inv co initContract ops init_inv
  refine ⟨hfwd, ?_, ?_⟩
  · intro a la i b lb j id hba hbb hia hjb
    exact owner_of_unique ⟨hfwd, hbwd⟩ hba hbb hia hjb
  · intro a la i id hba hit
    rw [hbwd a la i id hba hit]
    rfl

/-- C1 witness: after minting 1, 2, 3 to address 1 and burning 2, identity
3's reverse-index entry `⟨1, 1⟩` points at a slot holding 3. -/
theorem C1_cross_structure_consistency_witness :
    ∃ l, (applyOps 0 initContract
        [Op.mintId 1 1 1, Op.mintId 1 1 2, Op.mintId 1 1 3, Op.burnOp 0 2]).balance_of 1 =
      some l ∧ l[1]? = some 3 :=
  (C1_cross_structure_consistency 0
    [Op.mintId 1 1 1, Op.mintId 1 1 2, Op.mintId 1 1 3, Op.burnOp 0 2]).1 3 ⟨1, 1⟩ rfl

/-- C2: swap-with-last removal — removing a live identity whose recorded
position is not the last slot overwrites that slot with the collection's
last element, truncates by one, moves the last element's reverse-index
position to the freed slot, removes the identity's own entry, and leaves
every other reverse-index entry untouched. -/
theorem C2_swap_with_last_removal (c : NftContract) (id : TokenId) (oi : OwnerInfo)
    (l : List TokenId) (hC : CrossConsistent c) (ho : c.owner_of id = some oi)
    (hb : c.balance_of oi.address = some l) (hnotlast : oi.token_idx + 1 < l.length) :
    ∃ c', internal_remove_token c id = Except.ok (c', oi.address, l.length - 1) ∧
      c'.balance_of oi.address = some (swapRemove l oi.token_idx) ∧
      (swapRemove l oi.token_idx).length + 1 = l.length ∧
      (swapRemove l oi.token_idx)[oi.token_idx]? = some (l.getLastD 0) ∧
      c'.owner_of id = none ∧
      c'.owner_of (l.getLastD 0) = some ⟨oi.address, oi.token_idx⟩ ∧
      (∀ t, t ≠ id → t ≠ l.getLastD 0 → c'.owner_of t = c.owner_of t) := by
  have hidx : oi.token_idx < l.length - 1 := by omega
  have hlne : l ≠ [] := by
    intro hx
    rw [hx] at hnotlast
    simp at hnotlast
  have hlast : l[l.length - 1]? = some (l.getLastD 0) := getElem?_last hlne
  have hmo : c.owner_of (l.getLastD 0) = some ⟨oi.address, l.length - 1⟩ :=
    hC.2 oi.address l (l.length - 1) (l.getLastD 0) hb hlast
  have hmne : l.getLastD 0 ≠ id := by
    intro hx
    rw [hx, ho] at hmo
    have := congrArg OwnerInfo.token_idx (Option.some.inj hmo)
    dsimp only at this
    omega
  refine ⟨_, internal_remove_token_swap c id oi ⟨oi.address, l.length - 1⟩ l ho hb hidx hmo,
    ?_, ?_, ?_, ?_, ?_, ?_⟩
  · dsimp only
    rw [if_pos rfl]
  · rw [swapRemove_length]
    omega
  · rw [swapRemove_getElem?, if_pos hidx, if_pos rfl]
  · dsimp only
    rw [if_pos rfl]
  · dsimp only
    rw [if_neg hmne, if_pos rfl]
  · intro t ht htm
    dsimp only
    rw [if_neg ht, if_neg htm]

/-- C2 witness: with collection `[1, 2, 3]` at address 1, removing identity
1 (position 0, not last) yields collection `[3, 2]`, moves identity 3 to
slot 0, and deletes identity 1's entry. -/
theorem C2_swap_with_last_removal_witness :
    ∃ c', internal_remove_token
        (applyOps 0 initContract [Op.mintId 1 1 1, Op.mintId 1 1 2, Op.mintId 1 1 3]) 1 =
      Except.ok (c', 1, 2) ∧
      c'.balance_of 1 = some [3, 2] ∧
      ([3, 2] : List TokenId).length + 1 = ([1, 2, 3] : List TokenId).length ∧
      ([3, 2] : List TokenId)[0]? = some 3 ∧
      c'.owner_of 1 = none ∧
      c'.owner_of 3 = some ⟨1, 0⟩ ∧
      (∀ t, t ≠ 1 → t ≠ 3 → c'.owner_of t =
        (applyOps 0 initContract
          [Op.mintId 1 1 1, Op.mintId 1 1 2, Op.mintId 1 1 3]).owner_of t) :=
  C2_swap_with_last_removal
    (applyOps 0 initContract [Op.mintId 1 1 1, Op.mintId 1 1 2, Op.mintId 1 1 3])
    1 ⟨1, 0⟩ [1, 2, 3]
    (applyOps_inv 0 initContract [Op.mintId 1 1 1, Op.mintId 1 1 2, Op.mintId 1 1 3]
      init_inv).1
    rfl rfl (by decide)

/-- C3: burned is terminal — after a successful burn of `id`, for every
subsequent operation sequence `id` stays in the burned set and stays
non-live, every explicit re-mint of `id` fails `AlreadyBurned`, and the
cursor-scanning mint never commits `id` again. -/
theorem C3_burned_terminal (co : Address) (c c1 : NftContract) (caller : Address) (id : TokenId)
    (hburn : burn c caller co id = Except.ok c1) (ops : List Op) :
    (applyOps co c1 ops).burned_nfts id = true ∧
    (applyOps co c1 ops).owner_of id = none ∧
    (∀ toAddr, mint_id_to (applyOps co c1 ops) toAddr id =
      Except.error NftError.AlreadyBurned) ∧
    (∀ toAddr c2 nid, mint_to (applyOps co c1 ops) toAddr = Except.ok (c2, nid) → nid ≠ id) := by
  obtain ⟨h1, h2, _, _, _, _, _⟩ := burn_ok_facts c c1 caller co id hburn
  obtain ⟨hb', ho'⟩ := dead_preserved_ops co c1 ops id h1 h2
  refine ⟨hb', ho', ?_, ?_⟩
  · intro toAddr
    simp [mint_id_to, hb']
  · intro toAddr c2 nid hm
    obtain ⟨_, _, hbu, _, _, _⟩ := mint_to_ok_inv _ c2 toAddr nid hm
    intro hx
    rw [hx, hb'] at hbu
    exact Bool.noConfusion hbu

/-- C3 witness: burn identity 1, then after a further (failing) re-mint
attempt it is still burned, still unowned, and explicit re-minting still
fails `AlreadyBurned`. -/
theorem C3_burned_terminal_witness :
    (applyOps 0 (applyOps 0 initContract [Op.mintId 1 1 1, Op.burnOp 0 1])
      [Op.mintId 2 2 1]).burned_nfts 1 = true ∧
    (applyOps 0 (applyOps 0 initContract [Op.mintId 1 1 1, Op.burnOp 0 1])
      [Op.mintId 2 2 1]).owner_of 1 = none ∧
    mint_id_to (applyOps 0 (applyOps 0 initContract [Op.mintId 1 1 1, Op.burnOp 0 1])
      [Op.mintId 2 2 1]) 2 1 = Except.error NftError.AlreadyBurned :=
  ⟨(C3_burned_terminal 0 (applyOp 0 initContract (Op.mintId 1 1 1))
      (applyOps 0 initContract [Op.mintId 1 1 1, Op.burnOp 0 1]) 0 1 rfl [Op.mintId 2 2 1]).1,
    (C3_burned_terminal 0 (applyOp 0 initContract (Op.mintId 1 1 1))
      (applyOps 0 initContract [Op.mintId 1 1 1, Op.burnOp 0 1]) 0 1 rfl [Op.mintId 2 2 1]).2.1,
    (C3_burned_terminal 0 (applyOp 0 initContract (Op.mintId 1 1 1))
      (applyOps 0 initContract [Op.mintId 1 1 1, Op.burnOp 0 1]) 0 1 rfl
      [Op.mintId 2 2 1]).2.2.1 2⟩

/-- C10: per-owner collections are never deleted — once an address has a
collection it keeps one through every further operation, `owned_tokens`
then always succeeds, and an address that never receives a token (by mint
or transfer) still has no collection, which is the only way the
no-collection failure can arise. -/
theorem C10_collections_never_deleted (co : Address) :
    (∀ c ops a, (c.balance_of a).isSome → ((applyOps co c ops).balance_of a).isSome) ∧
    (∀ c ops a, (c.balance_of a).isSome →
      ∃ l, owned_tokens (applyOps co c ops) a = Except.ok l) ∧
    (∀ ops a, (∀ op ∈ ops, opReceives op a = false) →
      (applyOps co initContract ops).balance_of a = none ∧
      owned_tokens (applyOps co initContract ops) a = Except.error NftError.NoCollection) := by
  refine ⟨fun c ops a h => applyOps_balance_mono co c ops a h, ?_, ?_⟩
  · intro c ops a h
    obtain ⟨l, hl⟩ := Option.isSome_iff_exists.mp (applyOps_balance_mono co c ops a h)
    exact ⟨l, owned_tokens_some _ a l hl⟩
  · intro ops a hrecv
    have hn := applyOps_balance_none co initContract ops a rfl hrecv
    refine ⟨hn, ?_⟩
    unfold owned_tokens
    rw [hn]

/-- C10 witness: address 1 keeps a (now empty) collection after its only
token is burned, and address 2, which never received a token, still has
none. -/
theorem C10_collections_never_deleted_witness :
    ((applyOps 0 (applyOp 0 initContract (Op.mintId 1 1 7)) [Op.burnOp 0 7]).balance_of 1).isSome ∧
    (applyOps 0 initContract [Op.mintId 1 1 7]).balance_of 2 = none :=
  ⟨(C10_collections_never_deleted 0).1 (applyOp 0 initContract (Op.mintId 1 1 7))
      [Op.burnOp 0 7] 1 rfl,
    ((C10_collections_never_deleted 0).2.2 [Op.mintId 1 1 7] 2 (by decide)).1⟩

/-- C7: transfer authorization — `transfer_from` fails `UnknownToken` when
the identity is not live, else `OwnerMismatch` when `from` is not the
current owner, else `NotAuthorized` unless the caller is the owner, a
blanket operator for the owner, or the token's approved spender, and
succeeds exactly when all three checks pass (in a consistent state). -/
theorem C7_transfer_authorization (c : NftContract) (caller from' toAddr : Address)
    (id : TokenId) :
    (c.owner_of id = none →
      transfer_from c caller from' toAddr id = Except.error NftError.UnknownToken) ∧
    (∀ oi, c.owner_of id = some oi → from' ≠ oi.address →
      transfer_from c caller from' toAddr id = Except.error NftError.OwnerMismatch) ∧
    (∀ oi, c.owner_of id = some oi → from' = oi.address →
      (oi.address == caller ||
        ((c.is_approved_for_all from').bind fun m => m caller).getD false ||
        c.get_approved id == some caller) = false →
      transfer_from c caller from' toAddr id = Except.error NftError.NotAuthorized) ∧
    (∀ oi, CrossConsistent c → c.owner_of id = some oi → from' = oi.address →
      (oi.address == caller ||
        ((c.is_approved_for_all from').bind fun m => m caller).getD false ||
        c.get_approved id == some caller) = true →
      ∃ c', transfer_from c caller from' toAddr id = Except.ok c') := by
  refine ⟨?_, ?_, ?_, ?_⟩
  · intro h
    simp [transfer_from, h]
  · intro oi ho hf
    simp [transfer_from, ho, hf]
  · intro oi ho hf hauth
    subst hf
    simp [transfer_from, ho, hauth]
  · intro oi hC ho hf hauth
    subst hf
    obtain ⟨cr, n, hrem, _⟩ := remove_preserves c id oi hC ho
    refine ⟨internal_add_token_to cr toAddr id, ?_⟩
    simp only [transfer_from, ho, hauth, hrem, ne_eq, not_true_eq_false, if_false, if_true]

/-- C7 witness: with token 1 owned by address 1, transferring an unknown id
fails `UnknownToken`, a wrong `from` fails `OwnerMismatch`, an unauthorized
caller fails `NotAuthorized`, and the owner's own transfer succeeds. -/
theorem C7_transfer_authorization_witness :
    transfer_from (applyOps 0 initContract [Op.mintId 1 1 1]) 1 1 2 99 =
      Except.error NftError.UnknownToken ∧
    transfer_from (applyOps 0 initContract [Op.mintId 1 1 1]) 1 5 2 1 =
      Except.error NftError.OwnerMismatch ∧
    transfer_from (applyOps 0 initContract [Op.mintId 1 1 1]) 9 1 2 1 =
      Except.error NftError.NotAuthorized ∧
    ∃ c', transfer_from (applyOps 0 initContract [Op.mintId 1 1 1]) 1 1 2 1 = Except.ok c' :=
  ⟨(C7_transfer_authorization (applyOps 0 initContract [Op.mintId 1 1 1]) 1 1 2 99).1 rfl,
    (C7_transfer_authorization (applyOps 0 initContract [Op.mintId 1 1 1]) 1 5 2 1).2.1
      ⟨1, 0⟩ rfl (by decide),
    (C7_transfer_authorization (applyOps 0 initContract [Op.mintId 1 1 1]) 9 1 2 1).2.2.1
      ⟨1, 0⟩ rfl rfl rfl,
    (C7_transfer_authorization (applyOps 0 initContract [Op.mintId 1 1 1]) 1 1 2 1).2.2.2
      ⟨1, 0⟩ (applyOps_inv 0 initContract [Op.mintId 1 1 1] init_inv).1 rfl rfl rfl⟩

/-- C4 counterexample: the claim "a successful transfer does not clear the
token's approval entry" is false — address 1 approves spender 2 for token
1, the transfer to address 3 succeeds, and afterwards the approval entry
for token 1 is `none`, not `some 2`: `internal_remove_token` deletes it. -/
theorem C4_approval_cleared_counterexample :
    (applyOps 0 initContract [Op.mintId 1 1 1, Op.approveOp 1 2 1]).get_approved 1 = some 2 ∧
    (applyOps 0 initContract
      [Op.mintId 1 1 1, Op.approveOp 1 2 1, Op.transfer 1 1 3 1]).owner_of 1 = some ⟨3, 0⟩ ∧
    (applyOps 0 initContract
      [Op.mintId 1 1 1, Op.approveOp 1 2 1, Op.transfer 1 1 3 1]).get_approved 1 = none :=
  ⟨rfl, rfl, rfl⟩

/-- C4 (amended): a successful transfer removes the token's approval entry
(the spender recorded before the transfer is no longer recorded), and no
other token's approval entry changes. -/
theorem C4_transfer_clears_approval (c c1 : NftContract) (caller from' toAddr : Address)
    (id : TokenId) (h : transfer_from c caller from' toAddr id = Except.ok c1) :
    c1.get_approved id = none ∧ (∀ t, t ≠ id → c1.get_approved t = c.get_approved t) := by
  obtain ⟨_, hga, hgaf, _, _, _, _, _⟩ := transfer_ok_inv c c1 caller from' toAddr id h
  exact ⟨hga, hgaf⟩

/-- C4 (amended) witness: in the concrete approve-then-transfer scenario,
token 1's approval entry is gone after the transfer and token 2's entry is
untouched. -/
theorem C4_transfer_clears_approval_witness :
    (applyOps 0 initContract
      [Op.mintId 1 1 1, Op.approveOp 1 2 1, Op.transfer 1 1 3 1]).get_approved 1 = none ∧
    (∀ t, t ≠ 1 →
      (applyOps 0 initContract
        [Op.mintId 1 1 1, Op.approveOp 1 2 1, Op.transfer 1 1 3 1]).get_approved t =
      (applyOps 0 initContract [Op.mintId 1 1 1, Op.approveOp 1 2 1]).get_approved t) :=
  C4_transfer_clears_approval (applyOps 0 initContract [Op.mintId 1 1 1, Op.approveOp 1 2 1])
    (applyOps 0 initContract [Op.mintId 1 1 1, Op.approveOp 1 2 1, Op.transfer 1 1 3 1])
    1 1 3 1 rfl

/-- C6 counterexample: the claim "every identity accepted by allocation
lies in `[1, L1X_NFT_TOTAL_SUPPLY]`; id 0 is never allocated" is false —
`mint_id_to` accepts identity 0 (its only range check is
`id ≤ L1X_NFT_TOTAL_SUPPLY`), producing a live token with identity 0. -/
theorem C6_id_zero_allocated_counterexample :
    (applyOp 0 initContract (Op.mintId 1 1 0)).owner_of 0 = some ⟨1, 0⟩ ∧
    (applyOp 0 initContract (Op.mintId 1 1 0)).minted_total = 1 ∧
    ¬ (1 ≤ (0 : TokenId)) :=
  ⟨rfl, rfl, by decide⟩

/-- C6 (amended): every live identity in a reachable state is at most
`L1X_NFT_TOTAL_SUPPLY`; `mint_id_to` rejects every id above the maximum
supply with `SupplyExceeded` in reachable states; and `mint_to` only
returns identities in `[1, L1X_NFT_TOTAL_SUPPLY]` — but identity 0 can be
allocated through `mint_id_to`. -/
theorem C6_identity_range (co : Address) :
    (∀ ops id, (((applyOps co initContract ops).owner_of id).isSome) →
      id ≤ L1X_NFT_TOTAL_SUPPLY) ∧
    (∀ ops toAddr id, L1X_NFT_TOTAL_SUPPLY < id →
      mint_id_to (applyOps co initContract ops) toAddr id =
        Except.error NftError.SupplyExceeded) ∧
    (∀ c toAddr c2 nid, mint_to c toAddr = Except.ok (c2, nid) →
      1 ≤ nid ∧ nid ≤ L1X_NFT_TOTAL_SUPPLY) := by
  refine ⟨?_, ?_, ?_⟩
  · intro ops id h
    exact (applyOps_inv co initContract ops init_inv).2.1 id h
  · intro ops toAddr id hgt
    obtain ⟨_, hbl, hbb, _⟩ := applyOps_inv co initContract ops init_inv
    have hbu : (applyOps co initContract ops).burned_nfts id = false := by
      cases hx : (applyOps co initContract ops).burned_nfts id with
      | false => rfl
      | true => exact absurd (hbb id hx) (Nat.not_le.mpr hgt)
    have ho : (applyOps co initContract ops).owner_of id = none := by
      obtain hnone | ⟨x, hsome⟩ :=
        Option.eq_none_or_eq_some ((applyOps co initContract ops).owner_of id)
      · exact hnone
      · exact absurd (hbl id (by rw [hsome]; rfl)) (Nat.not_le.mpr hgt)
    simp [mint_id_to, hbu, ho, hgt]
  · intro c toAddr c2 nid hm
    obtain ⟨_, hle, _, _, hge, _⟩ := mint_to_ok_inv c c2 toAddr nid hm
    exact ⟨Nat.le_trans (Nat.le_add_left 1 c.current_token_id) hge, hle⟩

/-- C6 (amended) witness: identity 5 once live is within bounds, minting
identity 10001 fails `SupplyExceeded`, and the first scanned mint returns
identity 1 ∈ [1, 10000]. -/
theorem C6_identity_range_witness :
    (5 : TokenId) ≤ L1X_NFT_TOTAL_SUPPLY ∧
    mint_id_to (applyOps 0 initContract [Op.mintId 1 1 5]) 1 10001 =
      Except.error NftError.SupplyExceeded ∧
    (1 ≤ (1 : TokenId) ∧ (1 : TokenId) ≤ L1X_NFT_TOTAL_SUPPLY) :=
  ⟨(C6_identity_range 0).1 [Op.mintId 1 1 5] 5 rfl,
    (C6_identity_range 0).2.1 [Op.mintId 1 1 5] 1 10001 (by decide),
    (C6_identity_range 0).2.2 initContract 1 (applyOp 0 initContract (Op.mint 1 1)) 1 rfl⟩

/-- The operation sequence that mints identities `0, 1, …, n-1` to address 1
via the explicit-id entry point. -/
def mintRangeOps (n : Nat) : List Op := (List.range n).map (fun i => Op.mintId 1 1 i)

lemma cursor_update_burned (c : NftContract) (k : Nat) :
    ({ c with current_token_id := k }).burned_nfts = c.burned_nfts := rfl

lemma cursor_update_owner (c : NftContract) (k : Nat) :
    ({ c with current_token_id := k }).owner_of = c.owner_of := rfl

lemma cursor_update_minted (c : NftContract) (k : Nat) :
    ({ c with current_token_id := k }).minted_total = c.minted_total := rfl

lemma cursor_update_balance (c : NftContract) (k : Nat) :
    ({ c with current_token_id := k }).balance_of = c.balance_of := rfl

lemma mintRangeOps_succ (n : Nat) :
    mintRangeOps (n + 1) = mintRangeOps n ++ [Op.mintId 1 1 n] := by
  unfold mintRangeOps
  rw [List.range_succ, List.map_append]
  rfl

lemma mintRange_state (n : Nat) :
    n ≤ L1X_NFT_TOTAL_SUPPLY →
    ((applyOps 0 initContract (mintRangeOps n)).balance_of 1).getD [] = List.range n ∧
    (∀ a, a ≠ 1 → (applyOps 0 initContract (mintRangeOps n)).balance_of a = none) ∧
    (∀ id, (applyOps 0 initContract (mintRangeOps n)).owner_of id =
      if id < n then some ⟨1, id⟩ else none) ∧
    (applyOps 0 initContract (mintRangeOps n)).minted_total = n ∧
    (applyOps 0 initContract (mintRangeOps n)).current_token_id = 0 ∧
    (∀ id, (applyOps 0 initContract (mintRangeOps n)).burned_nfts id = false) := by
  induction n with
  | zero =>
    intro _
    refine ⟨rfl, fun a _ => rfl, fun id => ?_, rfl, rfl, fun id => rfl⟩
    rw [if_neg (Nat.not_lt_zero id)]
    rfl
  | succ n ih =>
    intro hn
    obtain ⟨ihb, ihb2, iho, ihm, ihc, ihburn⟩ := ih (Nat.le_of_succ_le hn)
    have hbu : (applyOps 0 initContract (mintRangeOps n)).burned_nfts n = false := ihburn n
    have ho : (applyOps 0 initContract (mintRangeOps n)).owner_of n = none :=
      (iho n).trans (if_neg (Nat.lt_irrefl n))
    have hok := mint_id_to_ok (applyOps 0 initContract (mintRangeOps n)) 1 n hbu ho
      (Nat.le_of_succ_le hn)
    have happly : applyOps 0 initContract (mintRangeOps (n + 1)) =
        afterMint (applyOps 0 initContract (mintRangeOps n)) 1 n := by
      rw [mintRangeOps_succ, applyOps_append]
      show applyOp 0 (applyOps 0 initContract (mintRangeOps n)) (Op.mintId 1 1 n) = _
      unfold applyOp
      simp only [runOp, hok]
    rw [happly]
    refine ⟨?_, ?_, ?_, ?_, ?_, ?_⟩
    · rw [afterMint_balance_of, if_pos rfl, Option.getD_some, ihb, List.range_succ]
    · intro a ha
      rw [afterMint_balance_of, if_neg ha]
      exact ihb2 a ha
    · intro id
      rw [afterMint_owner_of]
      by_cases hid : id = n
      · rw [if_pos hid, ihb, List.length_range, hid, if_pos (Nat.lt_succ_self n)]
      · rw [if_neg hid, iho id]
        by_cases hlt : id < n
        · rw [if_pos hlt, if_pos (Nat.lt_succ_of_lt hlt)]
        · rw [if_neg hlt, if_neg ?_]
          intro hcon
          rcases Nat.lt_succ_iff_lt_or_eq.mp hcon with h1 | h1
          · exact hlt h1
          · exact hid h1
    · rw [afterMint_minted, ihm]
    · rw [afterMint_cursor]
      exact ihc
    · intro id
      rw [afterMint_burned]
      exact ihburn id

lemma applyOps_singleton (co : Address) (c : NftContract) (op : Op) :
    applyOps co c [op] = applyOp co c op := rfl

lemma applyOp_of_runOp_ok (co : Address) (c c' : NftContract) (op : Op)
    (h : runOp co c op = Except.ok c') : applyOp co c op = c' := by
  unfold applyOp
  rw [h]

lemma runOp_mint_of_mint_to (co : Address) (c c2 : NftContract) (caller toAddr : Address)
    (nid : TokenId) (h : mint_to c toAddr = Except.ok (c2, nid)) :
    runOp co c (Op.mint caller toAddr) = Except.ok c2 := by
  simp only [runOp, h]

/-- C5 counterexample: the claim "live plus burned identities never exceed
`L1X_NFT_TOTAL_SUPPLY`, and after `L1X_NFT_TOTAL_SUPPLY` allocations the
next scanning mint fails `SupplyExhausted`" is false — mint identities
`0 … 9999` (10000 identities, `minted_total = 10000`), after which the
cursor-scanning mint still succeeds and commits identity 10000, driving
`minted_total` to 10001. -/
theorem C5_supply_bound_counterexample :
    (applyOps 0 initContract (mintRangeOps 10000)).minted_total = L1X_NFT_TOTAL_SUPPLY ∧
    (applyOps 0 initContract (mintRangeOps 10000 ++ [Op.mint 1 1])).minted_total =
      L1X_NFT_TOTAL_SUPPLY + 1 ∧
    ((applyOps 0 initContract (mintRangeOps 10000 ++ [Op.mint 1 1])).owner_of 10000).isSome ∧
    L1X_NFT_TOTAL_SUPPLY < L1X_NFT_TOTAL_SUPPLY + 1 := by
  obtain ⟨hb, _, ho, hm, hc, hburn⟩ := mintRange_state 10000 le_rfl
  have hfind : find_next_id
      (applyOps 0 initContract (mintRangeOps 10000)).owner_of
      ((applyOps 0 initContract (mintRangeOps 10000)).current_token_id + 1) = 10000 := by
    rw [hc]
    apply find_next_id_eq_target _ 1 10000 (by decide) le_rfl
    · intro j hj1 hj2
      rw [ho j, if_pos hj2]
      rfl
    · rw [ho 10000, if_neg (Nat.lt_irrefl 10000)]
  have hoknext := mint_id_to_ok
    { applyOps 0 initContract (mintRangeOps 10000) with current_token_id := 10000 } 1 10000
    (by rw [cursor_update_burned]; exact hburn 10000)
    (by rw [cursor_update_owner]; exact (ho 10000).trans (if_neg (Nat.lt_irrefl 10000)))
    le_rfl
  have hmint : mint_to (applyOps 0 initContract (mintRangeOps 10000)) 1 =
      Except.ok (afterMint
        { applyOps 0 initContract (mintRangeOps 10000) with current_token_id := 10000 }
        1 10000, 10000) := by
    unfold mint_to
    rw [hfind]
    dsimp only
    rw [if_neg (by decide : ¬ L1X_NFT_TOTAL_SUPPLY < 10000)]
    dsimp only at hoknext
    exact hoknext
  have happly : applyOps 0 initContract (mintRangeOps 10000 ++ [Op.mint 1 1]) =
      afterMint { applyOps 0 initContract (mintRangeOps 10000) with
        current_token_id := 10000 } 1 10000 := by
    rw [applyOps_append, applyOps_singleton]
    exact applyOp_of_runOp_ok 0 _ _ _
      (runOp_mint_of_mint_to 0 _ _ 1 1 10000 hmint)
  refine ⟨hm, ?_, ?_, Nat.lt_succ_self _⟩
  · rw [happly, afterMint_minted, cursor_update_minted, hm]
    rfl
  · rw [happly, afterMint_owner_of, if_pos rfl]
    rfl

/-- C5 (amended): the total number of identities ever allocated never
exceeds `L1X_NFT_TOTAL_SUPPLY + 1` (identity 0 widens the claimed bound by
one), and whenever every identity in `[1, L1X_NFT_TOTAL_SUPPLY]` is live
the scanning mint fails `SupplyExhausted`. -/
theorem C5_supply_bound (co : Address) :
    (∀ ops, (applyOps co initContract ops).minted_total ≤ L1X_NFT_TOTAL_SUPPLY + 1) ∧
    (∀ c toAddr, (∀ id, 1 ≤ id → id ≤ L1X_NFT_TOTAL_SUPPLY → ((c.owner_of id).isSome)) →
      mint_to c toAddr = Except.error NftError.SupplyExhausted) := by
  constructor
  · intro ops
    obtain ⟨_, _, _, hcount⟩ := applyOps_inv co initContract ops init_inv
    rw [hcount]
    calc allocCount (applyOps co initContract ops)
        ≤ (Finset.range (L1X_NFT_TOTAL_SUPPLY + 1)).card := Finset.card_filter_le _ _
      _ = L1X_NFT_TOTAL_SUPPLY + 1 := Finset.card_range _
  · intro c toAddr hall
    unfold mint_to
    rw [if_pos (find_next_id_all_live c.owner_of (c.current_token_id + 1) hall
      (Nat.le_add_left 1 c.current_token_id))]

/-- C5 (amended) witness: the bound holds in the initial state, and in a
state where all of `[1, 10000]` is live the scanning mint fails
`SupplyExhausted`. -/
theorem C5_supply_bound_witness :
    initContract.minted_total ≤ L1X_NFT_TOTAL_SUPPLY + 1 ∧
    mint_to { initContract with owner_of := fun id =>
        if 1 ≤ id ∧ id ≤ L1X_NFT_TOTAL_SUPPLY then some ⟨1, 0⟩ else none } 1 =
      Except.error NftError.SupplyExhausted :=
  ⟨(C5_supply_bound 0).1 [],
    (C5_supply_bound 0).2
      { initContract with owner_of := fun id =>
          if 1 ≤ id ∧ id ≤ L1X_NFT_TOTAL_SUPPLY then some ⟨1, 0⟩ else none } 1
      (fun id h1 h2 => by
        dsimp only
        rw [if_pos ⟨h1, h2⟩]
        rfl)⟩
